import Mathlib

/-!
Verification of the robofuse sync engine against its specification.

The Go sources are shallowly embedded: Go strings are modeled as `List Char`
(sequences of Unicode scalars); Go's byte-oriented `len`/slicing is modeled
via UTF-8 byte sizes (`goLen`, `takeBytes`) so that lengths agree on all
inputs and slicing agrees except when a slice boundary would split a
multi-byte rune (Go then keeps partial bytes, which a rune-level model cannot
represent).  `time.Time` values are modeled as integers; Go's zero time
(the "unset" value) is modeled as `Option.none` where relevant.  Maps are
modeled as association lists with the same update semantics as the source.
-/

set_option maxRecDepth 10000

namespace Robofuse

/-- Go strings, modeled as sequences of Unicode scalars. -/
abbrev Str := List Char

/-- unicode.IsSpace from the Go standard library (White_Space property). -/
def goIsSpace (c : Char) : Bool :=
  c == '\t' || c == '\n' || c.toNat == 11 || c.toNat == 12 || c == '\r' || c == ' ' ||
  c.toNat == 0x85 || c.toNat == 0xA0 || c.toNat == 0x1680 ||
  (decide (0x2000 ≤ c.toNat) && decide (c.toNat ≤ 0x200A)) ||
  c.toNat == 0x2028 || c.toNat == 0x2029 ||
  c.toNat == 0x202F || c.toNat == 0x205F || c.toNat == 0x3000

/-- The splitting loop of strings.Fields, carrying the current word in
reverse. -/
def goFieldsAux : Str → Str → List Str
  | [], cur => if cur = [] then [] else [cur.reverse]
  | c :: rest, cur =>
    if goIsSpace c then
      if cur = [] then goFieldsAux rest []
      else cur.reverse :: goFieldsAux rest []
    else goFieldsAux rest (c :: cur)

/-- strings.Fields: splits around runs of whitespace, dropping empty fields. -/
def goFields (s : Str) : List Str := goFieldsAux s []

/-- strings.Join(words, " "). -/
def joinSpace : List Str → Str
  | [] => []
  | [w] => w
  | w :: ws => w ++ ' ' :: joinSpace ws

/-- strings.TrimSpace: trims leading and trailing Unicode whitespace. -/
def trimSpaceS (s : Str) : Str :=
  (((s.dropWhile goIsSpace).reverse.dropWhile goIsSpace).reverse)

/-- unicode-to-lower on the ASCII range (identity on other scalars; the
source only ever compares against ASCII literals). -/
def goToLowerChar (c : Char) : Char :=
  if 'A' ≤ c ∧ c ≤ 'Z' then Char.ofNat (c.toNat + 32) else c

/-- strings.ToLower. -/
def goToLower (s : Str) : Str := s.map goToLowerChar

/-- Go `len` on a string: its UTF-8 byte length. -/
def goLen (s : Str) : Nat := s.foldl (fun n c => n + c.utf8Size) 0

/-- Byte-granular prefix (models `s[:n]`), truncating at a rune boundary. -/
def takeBytes : Str → Nat → Str
  | [], _ => []
  | c :: rest, n => if c.utf8Size ≤ n then c :: takeBytes rest (n - c.utf8Size) else []

/-- Value of one hexadecimal digit (the digit ranges 0-9, a-f, A-F, written
out on scalar values). -/
def hexDigitVal (c : Char) : Option Nat :=
  if 48 ≤ c.toNat ∧ c.toNat ≤ 57 then some (c.toNat - 48)
  else if 97 ≤ c.toNat ∧ c.toNat ≤ 102 then some (c.toNat - 97 + 10)
  else if 65 ≤ c.toNat ∧ c.toNat ≤ 70 then some (c.toNat - 65 + 10)
  else none

/-- Unsigned hex-digit accumulation (strconv.ParseUint body, base 16). -/
def parseHexAux : Str → Nat → Option Nat
  | [], acc => some acc
  | c :: rest, acc =>
    match hexDigitVal c with
    | some d => parseHexAux rest (acc * 16 + d)
    | none => none

/-- strconv.ParseInt(s, 16, 8): optional sign, at least one hex digit, and the
result must fit a signed 8-bit integer (-128 ≤ v ≤ 127). -/
def parseIntHex8 (s : Str) : Option Int :=
  match s with
  | [] => none
  | c0 :: rest =>
    let neg := c0 = '-'
    let digits := if c0 = '+' ∨ c0 = '-' then rest else c0 :: rest
    if digits = [] then none
    else
      match parseHexAux digits 0 with
      | none => none
      | some v =>
        if neg then (if v ≤ 128 then some (-(v : Int)) else none)
        else (if v ≤ 127 then some (v : Int) else none)

/-- string(rune(v)): a valid scalar yields that character; an invalid rune
(negative, in our int8 range) yields U+FFFD. -/
def goRuneStr (v : Int) : Str :=
  if 0 ≤ v then [Char.ofNat v.toNat] else [Char.ofNat 0xFFFD]

/-- The index loop of urlDecode.  The loop variable advances by one each
iteration while the string can only shrink, so the initial length bounds the
number of iterations. -/
def urlDecodeGo (decoded : Str) (i : Nat) : Nat → Str
  | 0 => decoded
  | fuel + 1 =>
    if i + 2 < decoded.length then
      if decoded.getD i ' ' = '%' then
        match parseIntHex8 ((decoded.drop (i + 1)).take 2) with
        | some v =>
          urlDecodeGo (decoded.take i ++ goRuneStr v ++ decoded.drop (i + 3)) (i + 1) fuel
        | none => urlDecodeGo decoded (i + 1) fuel
      else urlDecodeGo decoded (i + 1) fuel
    else decoded

/-- urlDecode from strm.go: replaces %XX with the parsed character when the
two following characters parse as a hex value fitting a signed 8-bit int. -/
def urlDecode (s : Str) : Str := urlDecodeGo s 0 s.length

/-- The multi-pass URL decoding of sanitizeFilename (up to 3 passes, stopping
at a fixed point). -/
def decodeFix : Str → Nat → Str
  | name, 0 => name
  | name, n + 1 =>
    let d := urlDecode name
    if d = name then name else decodeFix d n

/-- The \w character class of Go regexp ([0-9A-Za-z_]), extended with '-'. -/
def isWordDash (c : Char) : Bool := c.isAlpha || c.isDigit || c == '_' || c == '-'

/-- Strip a literal prefix, or fail. -/
def dropPrefixLit (lit s : Str) : Option Str :=
  if lit.isPrefixOf s then some (s.drop lit.length) else none

/-- Alternative `hhd\d+\.com@` of the site-prefix regex.  Since '.' is not a
digit, the greedy maximal digit run is the only candidate match. -/
def sitePrefix1 (s : Str) : Option Str :=
  match dropPrefixLit "hhd".toList s with
  | none => none
  | some rest =>
    let digits := rest.takeWhile Char.isDigit
    if digits = [] then none else dropPrefixLit ".com@".toList (rest.dropWhile Char.isDigit)

/-- Alternative `hdd\d+\.com@` of the site-prefix regex. -/
def sitePrefix2 (s : Str) : Option Str :=
  match dropPrefixLit "hdd".toList s with
  | none => none
  | some rest =>
    let digits := rest.takeWhile Char.isDigit
    if digits = [] then none else dropPrefixLit ".com@".toList (rest.dropWhile Char.isDigit)

/-- Alternative `www\.[\w-]+\.com@`.  '.' is outside [\w-], so the greedy
maximal run is the only candidate match. -/
def sitePrefix3 (s : Str) : Option Str :=
  match dropPrefixLit "www.".toList s with
  | none => none
  | some rest =>
    let word := rest.takeWhile isWordDash
    if word = [] then none else dropPrefixLit ".com@".toList (rest.dropWhile isWordDash)

/-- Alternative `[\w-]+\.com@`. -/
def sitePrefix4 (s : Str) : Option Str :=
  let word := s.takeWhile isWordDash
  if word = [] then none else dropPrefixLit ".com@".toList (s.dropWhile isWordDash)

/-- removeSitePrefixes from strm.go: the regex is anchored at the start, so
ReplaceAllString removes at most one leftmost-first match of the four
alternatives, tried in order. -/
def removeSitePrefixes (s : Str) : Str :=
  match sitePrefix1 s with
  | some r => r
  | none =>
    match sitePrefix2 s with
    | some r => r
    | none =>
      match sitePrefix3 s with
      | some r => r
      | none =>
        match sitePrefix4 s with
        | some r => r
        | none => s

/-- filepath.Ext: scans backwards from the end, stopping at a path separator,
and returns the suffix starting at the last dot.  The accumulator carries the
already-scanned characters in original order. -/
def extOfAux : Str → Str → Str
  | [], _ => []
  | c :: rest, acc =>
    if c = '/' then [] else if c = '.' then c :: acc else extOfAux rest (c :: acc)

/-- filepath.Ext. -/
def extOf (p : Str) : Str := extOfAux p.reverse []

/-- strings.TrimSuffix. -/
def trimSuffixS (s suf : Str) : Str :=
  if suf.isSuffixOf s then s.take (s.length - suf.length) else s

/-- Steps 4 of sanitizeFilename: the three ReplaceAll calls ('.', '_', '-'
to ' ') compose into one character map since their targets are disjoint and
the replacement is not itself a target. -/
def replaceSeps (s : Str) : Str :=
  s.map (fun c => if c = '.' ∨ c = '_' ∨ c = '-' then ' ' else c)

/-- The length the truncation loop tests before appending a word. -/
def truncTestLen (truncated w : Str) : Nat :=
  goLen truncated + (if truncated = [] then 0 else 1) + goLen w

/-- The word-appending loop of step 6 of sanitizeFilename (Go `break` on the
first word that does not fit). -/
def truncLoop : List Str → Str → Str
  | [], acc => acc
  | w :: ws, acc =>
    if truncTestLen acc w ≤ 195 then
      truncLoop ws (if acc = [] then w else acc ++ ' ' :: w)
    else acc

/-- Step 6 of sanitizeFilename: word-boundary-aware truncation. -/
def truncateBase (b : Str) : Str :=
  if 200 < goLen b then
    let t := truncLoop (goFields b) []
    if t = [] then takeBytes b 195 else t
  else b

/-- The invalid filesystem characters replaced in step 7. -/
def invalidChar (c : Char) : Bool :=
  c == '/' || c == '\\' || c == ':' || c == '*' || c == '?' ||
  c == '"' || c == '<' || c == '>' || c == '|'

/-- Step 7 of sanitizeFilename: strings.NewReplacer over single characters. -/
def replaceInvalid (s : Str) : Str :=
  s.map (fun c => if invalidChar c then '_' else c)

/-- sanitizeFilename from strm.go. -/
def sanitizeFilename (name : Str) : Str :=
  let n1 := decodeFix name 3
  let n2 := removeSitePrefixes n1
  let ext := extOf n2
  let base := trimSuffixS n2 ext
  let b1 := replaceSeps base
  let b2 := joinSpace (goFields b1)
  let b3 := truncateBase b2
  let b4 := replaceInvalid b3
  let b5 := trimSpaceS b4
  b5 ++ ext

/-- filepath.Join of two components, specialized to the outputs of
sanitizeFilename: such components contain no '/' (step 7 replaces it), and
are never ".." (dots survive only in the extension, which starts with the
single last dot), so Go's Clean reduces to dropping an empty or "." folder. -/
def joinPath (a b : Str) : Str :=
  if a = [] ∨ a = ['.'] then b else a ++ '/' :: b

/-- buildSTRMPath from strm.go. -/
def buildSTRMPath (folderName filename : Str) : Str :=
  let folder := sanitizeFilename folderName
  let file := sanitizeFilename filename
  let ext := extOf file
  let strmName := trimSuffixS file ext ++ ".strm".toList
  joinPath folder strmName

/-! ## pkg/tracking -/

/-- FileTracking from tracking.go.  Timestamps are integers; Go's zero
`time.Time` (the unset value) is `none`. -/
structure FileTracking where
  RelativePath : Str
  DownloadURL : Str
  Link : Str
  CreatedAt : Int
  LastChecked : Option Int
  TorrentID : Str
deriving Repr, DecidableEq

/-- The tracking store: a map from relative path to its record, modeled as a
list of records keyed by their RelativePath field. -/
abbrev TrackMap := List FileTracking

namespace Tracking

/-- Track from tracking.go: update an existing entry (URL, link, last-check;
CreatedAt and TorrentID are left untouched) or create a fresh one. -/
def Track (tr : TrackMap) (relativePath downloadURL link torrentID : Str) (now : Int) :
    TrackMap :=
  if tr.any (fun e => decide (e.RelativePath = relativePath)) then
    tr.map (fun e =>
      if e.RelativePath = relativePath then
        { e with DownloadURL := downloadURL, Link := link, LastChecked := some now }
      else e)
  else
    tr ++ [{ RelativePath := relativePath, DownloadURL := downloadURL, Link := link,
             CreatedAt := now, LastChecked := some now, TorrentID := torrentID }]

/-- Remove from tracking.go: delete the entry for a path. -/
def Remove (tr : TrackMap) (relativePath : Str) : TrackMap :=
  tr.filter (fun e => decide (e.RelativePath ≠ relativePath))

/-- GetExpired from tracking.go: keeps records whose CreatedAt is before
`now - olderThan`.  (The LastChecked field is not consulted.) -/
def GetExpired (tr : TrackMap) (now olderThan : Int) : TrackMap :=
  tr.filter (fun t => decide (t.CreatedAt < now - olderThan))

/-- The expiry selection as the specification words it: the last-check time,
falling back to the creation time when unset, is compared to the threshold.
This definition exists only to be compared against `GetExpired`. -/
def GetExpiredSpec (tr : TrackMap) (now olderThan : Int) : TrackMap :=
  tr.filter (fun t => decide (t.LastChecked.getD t.CreatedAt < now - olderThan))

end Tracking

/-! ## pkg/realdebrid: data model, downloads -/

/-- Download from types.go.  The Go field `Download` (the direct streamable
URL) is renamed DownloadURL here because a field cannot shadow its own
structure name in Lean. -/
structure Download where
  ID : Str
  Filename : Str
  MimeType : Str
  Filesize : Int
  Link : Str
  Host : Str
  Chunks : Int
  DownloadURL : Str
  Streamable : Int
  Generated : Int
deriving Repr, DecidableEq

/-- IsStreamable from types.go. -/
def Download.IsStreamable (d : Download) : Bool := decide (d.Streamable = 1)

/-- Torrent from types.go (progress and timestamps are omitted: no embedded
operation reads them). -/
structure Torrent where
  ID : Str
  Filename : Str
  Hash : Str
  Bytes : Int
  Status : Str
  Links : List Str
deriving Repr, DecidableEq

/-- STRMCandidate from types.go. -/
structure STRMCandidate where
  TorrentID : Str
  TorrentFolder : Str
  Filename : Str
  DownloadURL : Str
  Link : Str
  Filesize : Int
deriving Repr, DecidableEq

namespace RD

/-- One step of the linkMap fold in deduplicateDownloads: insert a download
keyed by its link, replacing the present entry only when the new download's
Generated time is strictly after the present one's. -/
def dedupInsert (m : List (Str × Download)) (d : Download) : List (Str × Download) :=
  match m.find? (fun e => decide (e.1 = d.Link)) with
  | some e =>
    if e.2.Generated < d.Generated then
      m.map (fun e' => if e'.1 = d.Link then (d.Link, d) else e')
    else m
  | none => m ++ [(d.Link, d)]

/-- deduplicateDownloads from downloads.go. -/
def deduplicateDownloads (downloads : List Download) : List Download :=
  (downloads.foldl dedupInsert []).map (fun e => e.2)

/-- GetDownloads from downloads.go, after pagination: filter for streamable
downloads and deduplicate by link. -/
def GetDownloads (all : List Download) : List Download :=
  deduplicateDownloads (all.filter Download.IsStreamable)

/-- GetTorrents from torrents.go, after pagination: partition the torrent
list by status into downloaded and dead. -/
def getTorrentsFiltered (all : List Torrent) : List Torrent × List Torrent :=
  (all.filter (fun t => decide (t.Status = "downloaded".toList)),
   all.filter (fun t => decide (t.Status = "dead".toList)))

end RD

/-! ## pkg/strm: scan and reconcile -/

/-- The output tree, as a map from relative path to file content. -/
abbrev FS := List (Str × Str)

namespace Strm

/-- Map lookup on the output tree. -/
def lookupFS (fs : FS) (p : Str) : Option Str :=
  match fs.find? (fun e => decide (e.1 = p)) with
  | some e => some e.2
  | none => none

/-- writeSTRM, as an effect on the tree: overwrite or create the file. -/
def writeFS (fs : FS) (p v : Str) : FS :=
  if fs.any (fun e => decide (e.1 = p)) then
    fs.map (fun e => if e.1 = p then (p, v) else e)
  else fs ++ [(p, v)]

/-- os.Remove, as an effect on the tree. -/
def removeFS (fs : FS) (p : Str) : FS :=
  fs.filter (fun e => decide (e.1 ≠ p))

/-- The filter of scanExisting: the lower-cased path ends in ".strm". -/
def isStrmPath (p : Str) : Bool := ".strm".toList.isSuffixOf (goToLower p)

/-- scanExisting from strm.go: index every .strm file by relative path,
with whitespace-trimmed content. -/
def scanExisting (fs : FS) : FS :=
  (fs.filter (fun e => isStrmPath e.1)).map (fun e => (e.1, trimSpaceS e.2))

/-- SyncResult from strm.go. -/
structure SyncResult where
  Added : Nat
  Updated : Nat
  Deleted : Nat
  Skipped : Nat
  Tracked : Nat
deriving Repr, DecidableEq

/-- One map assignment `expected[path] = c` (later candidates with the same
path overwrite earlier ones). -/
def insertReplace (l : List (Str × STRMCandidate)) (k : Str) (v : STRMCandidate) :
    List (Str × STRMCandidate) :=
  if l.any (fun e => decide (e.1 = k)) then
    l.map (fun e => if e.1 = k then (k, v) else e)
  else l ++ [(k, v)]

/-- Step 2 of Sync: build the expected map from the candidate list.  The
expected URL of a path is the DownloadURL of its candidate, so the `expected`
and `candidateMap` maps of the source are fused into one. -/
def buildExpected : List STRMCandidate → List (Str × STRMCandidate) →
    List (Str × STRMCandidate)
  | [], acc => acc
  | c :: rest, acc =>
    buildExpected rest (insertReplace acc (buildSTRMPath c.TorrentFolder c.Filename) c)

/-- The expected map of a candidate list. -/
def expectedOf (cands : List STRMCandidate) : List (Str × STRMCandidate) :=
  buildExpected cands []

/-- Step 3 of Sync: process each desired (path, candidate) against the scan
snapshot, counting (added, updated, skipped) and, outside dry-run, writing
files and tracking records. -/
def processExpected (existing : FS) (now : Int) (dryRun : Bool) :
    List (Str × STRMCandidate) → FS → TrackMap → (Nat × Nat × Nat) × FS × TrackMap
  | [], fs, tr => ((0, 0, 0), fs, tr)
  | (p, c) :: rest, fs, tr =>
    match lookupFS existing p with
    | some u =>
      if u = c.DownloadURL then
        let r := processExpected existing now dryRun rest fs tr
        ((r.1.1, r.1.2.1, r.1.2.2 + 1), r.2)
      else
        let fs1 := if dryRun then fs else writeFS fs p c.DownloadURL
        let tr1 := if dryRun then tr else
          Tracking.Track tr p c.DownloadURL c.Link c.TorrentID now
        let r := processExpected existing now dryRun rest fs1 tr1
        ((r.1.1, r.1.2.1 + 1, r.1.2.2), r.2)
    | none =>
      let fs1 := if dryRun then fs else writeFS fs p c.DownloadURL
      let tr1 := if dryRun then tr else
        Tracking.Track tr p c.DownloadURL c.Link c.TorrentID now
      let r := processExpected existing now dryRun rest fs1 tr1
      ((r.1.1 + 1, r.1.2.1, r.1.2.2), r.2)

/-- Step 4 of Sync: delete every scanned file whose path is not expected
(counting deletions), removing its tracking entry. -/
def deleteOrphans (expected : List (Str × STRMCandidate)) (dryRun : Bool) :
    FS → FS → TrackMap → Nat × FS × TrackMap
  | [], fs, tr => (0, fs, tr)
  | (p, _) :: rest, fs, tr =>
    if expected.any (fun e => decide (e.1 = p)) then
      deleteOrphans expected dryRun rest fs tr
    else
      let fs1 := if dryRun then fs else removeFS fs p
      let tr1 := if dryRun then tr else Tracking.Remove tr p
      let r := deleteOrphans expected dryRun rest fs1 tr1
      (r.1 + 1, r.2)

/-- Sync from strm.go.  Returns the counts, the new tree, the new tracking
store, and the number of tracking-store persists (0 under dry-run, else 1). -/
def Sync (cands : List STRMCandidate) (fs : FS) (tr : TrackMap) (now : Int)
    (dryRun : Bool) : SyncResult × FS × TrackMap × Nat :=
  let existing := scanExisting fs
  let expected := expectedOf cands
  let p1 := processExpected existing now dryRun expected fs tr
  let p2 := deleteOrphans expected dryRun existing p1.2.1 p1.2.2
  let saves := if dryRun then 0 else 1
  ({ Added := p1.1.1, Updated := p1.1.2.1, Deleted := p2.1, Skipped := p1.1.2.2,
     Tracked := p2.2.2.length }, p2.2.1, p2.2.2, saves)

/-- GetExpiredFiles from strm.go: delegates to the tracking store. -/
def GetExpiredFiles (tr : TrackMap) (now olderThan : Int) : TrackMap :=
  Tracking.GetExpired tr now olderThan

end Strm

/-! ## errors, file types, candidates -/

/-- The error values flowing through the sync package.  The HTTPError
constructor mirrors request.HTTPError (StatusCode, Message, Code), whose
fields are taken from its construction sites in tracking.go; the sentinel
constructors mirror the request package's named errors. -/
inductive GoError where
  | HTTPError (StatusCode : Int) (Message Code : Str)
  | HosterUnavailable
  | TrafficExceeded
  | LinkBroken
  | TorrentNotFound
  | other (msg : Str)
deriving Repr, DecidableEq

/-- Video extensions from file_types.go. -/
def videoExtensions : List Str :=
  [".mkv".toList, ".mp4".toList, ".avi".toList, ".mov".toList, ".wmv".toList,
   ".flv".toList, ".m4v".toList, ".webm".toList, ".mpg".toList, ".mpeg".toList,
   ".ts".toList, ".m2ts".toList]

/-- Subtitle extensions from file_types.go. -/
def subtitleExtensions : List Str :=
  [".srt".toList, ".ass".toList, ".ssa".toList, ".vtt".toList, ".sub".toList,
   ".idx".toList, ".smi".toList, ".sbv".toList]

/-- isVideo from file_types.go. -/
def isVideo (filename : Str) : Bool :=
  decide (goToLower (extOf filename) ∈ videoExtensions)

/-- isSubtitle from file_types.go. -/
def isSubtitle (filename : Str) : Bool :=
  decide (goToLower (extOf filename) ∈ subtitleExtensions)

/-- MinFileSizeBytes from config.go. -/
def MinFileSizeBytes (minFileSizeMB : Int) : Int := minFileSizeMB * 1024 * 1024

namespace SyncP

/-- The inner loop of buildCandidatesInto over one torrent's links. -/
def buildCandidatesLinks (tID tFolder : Str) (dm : Str → Option Download)
    (minSize : Int) : List Str → List STRMCandidate × Nat × Nat
  | [] => ([], 0, 0)
  | link :: rest =>
    match dm link with
    | none => buildCandidatesLinks tID tFolder dm minSize rest
    | some d =>
      let isVid := isVideo d.Filename
      let isSub := isSubtitle d.Filename
      if isVid ∧ d.Filesize < minSize then
        let r := buildCandidatesLinks tID tFolder dm minSize rest
        (r.1, r.2.1 + 1, r.2.2)
      else if ¬ isVid ∧ ¬ isSub then
        let r := buildCandidatesLinks tID tFolder dm minSize rest
        (r.1, r.2.1, r.2.2 + 1)
      else
        let r := buildCandidatesLinks tID tFolder dm minSize rest
        ({ TorrentID := tID, TorrentFolder := tFolder, Filename := d.Filename,
           DownloadURL := d.DownloadURL, Link := d.Link, Filesize := d.Filesize } :: r.1,
         r.2)

/-- buildCandidatesInto from sync.go: emit a candidate for every matched link
that survives the size filter (videos only) and the type filter.  Returns the
candidate list and the (filteredSmall, filteredOther) counts. -/
def buildCandidatesInto (dm : Str → Option Download) (minSize : Int) :
    List Torrent → List STRMCandidate × Nat × Nat
  | [] => ([], 0, 0)
  | t :: ts =>
    let r1 := buildCandidatesLinks t.ID t.Filename dm minSize t.Links
    let r2 := buildCandidatesInto dm minSize ts
    (r1.1 ++ r2.1, r1.2.1 + r2.2.1, r1.2.2 + r2.2.2)

/-- isRetryableError from retry_processor.go (sync package): a typed HTTP
error with status 503/502/504, or carrying the special retry code. -/
def isRetryableError : GoError → Bool
  | .HTTPError sc _ code =>
    decide (sc = 503) || decide (sc = 502) || decide (sc = 504) ||
    decide (code = "server_unavailable_retryable".toList)
  | _ => false

end SyncP

/-! ## pkg/retry: the cross-cycle queue -/

/-- RetryItem from retry.go. -/
structure RetryItem where
  Link : Str
  TorrentID : Str
  Filename : Str
  AddedAt : Int
  RetryCount : Int
  LastError : Str
  ErrorType : Str
deriving Repr, DecidableEq

instance : Inhabited RetryItem := ⟨⟨[], [], [], 0, 0, [], []⟩⟩

/-- The message of err.Error(), as far as the embedding needs it. -/
def errString : GoError → Str
  | .HTTPError _ m _ => m
  | .HosterUnavailable => "hoster is unavailable".toList
  | .TrafficExceeded => "traffic exceeded".toList
  | .LinkBroken => "link is broken".toList
  | .TorrentNotFound => "torrent not found".toList
  | .other m => m

namespace Retry

/-- Add from retry.go: the first item with the same link has its retry count
incremented and message refreshed; otherwise a fresh item is appended. -/
def Add : List RetryItem → Str → Str → Str → Str → Str → Int → List RetryItem
  | [], link, torrentID, filename, errorType, errorMsg, now =>
    [{ Link := link, TorrentID := torrentID, Filename := filename, AddedAt := now,
       RetryCount := 0, LastError := errorMsg, ErrorType := errorType }]
  | it :: rest, link, torrentID, filename, errorType, errorMsg, now =>
    if it.Link = link then
      { it with RetryCount := it.RetryCount + 1, LastError := errorMsg } :: rest
    else it :: Add rest link torrentID filename errorType errorMsg now

/-- The index of the first matching item (the scan of Remove's loop). -/
def findIdxA (p : RetryItem → Bool) : List RetryItem → Option Nat
  | [] => none
  | it :: rest => if p it then some 0 else (findIdxA p rest).map (fun i => i + 1)

/-- Remove from retry.go: the first item with the link is replaced by the
last element and the list is truncated. -/
def Remove (q : List RetryItem) (link : Str) : List RetryItem :=
  match findIdxA (fun it => decide (it.Link = link)) q with
  | none => q
  | some i => (q.set i (q.getLastD default)).dropLast

/-- IncrementRetry from retry.go: bump the first item with the link. -/
def IncrementRetry : List RetryItem → Str → List RetryItem
  | [], _ => []
  | it :: rest, link =>
    if it.Link = link then { it with RetryCount := it.RetryCount + 1 } :: rest
    else it :: IncrementRetry rest link

end Retry

namespace SyncP

/-- addToRetryQueue from retry_processor.go: only retryable errors enqueue. -/
def addToRetryQueue (q : List RetryItem) (link : Str) (torrent : Torrent)
    (err : GoError) (now : Int) : List RetryItem :=
  if isRetryableError err then
    Retry.Add q link torrent.ID torrent.Filename "503".toList (errString err) now
  else q

/-- RetryStats from retry_processor.go. -/
structure RetryStats where
  Succeeded : Nat
  Failed : Nat
  MaxedOut : Nat
deriving Repr, DecidableEq

/-- Torrent-map membership used by the drain. -/
def torrentExists (torrents : List Torrent) (id : Str) : Bool :=
  torrents.any (fun t => decide (t.ID = id))

/-- The per-item loop of processRetryQueue over the queue snapshot, carrying
the live queue.  Also returns the list of items actually dispatched to
UnrestrictLink, in dispatch order. -/
def drainItems (maxAttempts : Int) (torrents : List Torrent)
    (unres : Str → Except GoError Download) :
    List RetryItem → List RetryItem → RetryStats × List RetryItem × List RetryItem
  | [], q => (⟨0, 0, 0⟩, q, [])
  | item :: rest, q =>
    if maxAttempts ≤ item.RetryCount then
      let r := drainItems maxAttempts torrents unres rest (Retry.Remove q item.Link)
      ({ r.1 with MaxedOut := r.1.MaxedOut + 1 }, r.2)
    else if ¬ torrentExists torrents item.TorrentID then
      drainItems maxAttempts torrents unres rest (Retry.Remove q item.Link)
    else
      match unres item.Link with
      | .error e =>
        if isRetryableError e then
          let r := drainItems maxAttempts torrents unres rest
            (Retry.IncrementRetry q item.Link)
          ({ r.1 with Failed := r.1.Failed + 1 }, r.2.1, item :: r.2.2)
        else
          let r := drainItems maxAttempts torrents unres rest (Retry.Remove q item.Link)
          ({ r.1 with Failed := r.1.Failed + 1 }, r.2.1, item :: r.2.2)
      | .ok _ =>
        let r := drainItems maxAttempts torrents unres rest (Retry.Remove q item.Link)
        ({ r.1 with Succeeded := r.1.Succeeded + 1 }, r.2.1, item :: r.2.2)

/-- processRetryQueue from retry_processor.go.  Returns the stats, the final
queue, the dispatched items, and the number of queue persists (the early
return on an empty queue skips the save). -/
def processRetryQueue (maxAttempts : Int) (q : List RetryItem)
    (torrents : List Torrent) (unres : Str → Except GoError Download) :
    RetryStats × List RetryItem × List RetryItem × Nat :=
  if q = [] then (⟨0, 0, 0⟩, q, [], 0)
  else
    let r := drainItems maxAttempts torrents unres q q
    (r.1, r.2.1, r.2.2, 1)

end SyncP

/-! ## internal/request: the HTTP client -/

namespace Req

/-- The transport errors seen by Do; the two flags model the net.Error
interface's Timeout() and Temporary() methods. -/
structure TransportErr where
  msg : Str
  isNetErr : Bool
  timeout : Bool
  temporary : Bool
deriving Repr, DecidableEq

/-- strings.Contains: `sub` occurs inside `s`. -/
def containsSub (s sub : Str) : Bool :=
  (List.range (s.length + 1)).any (fun i => sub.isPrefixOf (s.drop i))

/-- The substrings matched by isRetryableError in request.go. -/
def retryPatterns : List Str :=
  ["connection reset by peer".toList, "read: connection reset".toList,
   "connection refused".toList, "network is unreachable".toList,
   "connection timed out".toList, "no such host".toList, "i/o timeout".toList,
   "unexpected EOF".toList, "TLS handshake timeout".toList]

/-- isRetryableError from request.go (transport-level). -/
def isRetryableError (e : TransportErr) : Bool :=
  retryPatterns.any (fun p => containsSub e.msg p) ||
  (e.isNetErr && (e.timeout || e.temporary))

/-- The Client fields that affect the retry loop (transport construction is
pure I/O plumbing and is omitted). -/
structure Client where
  maxRetries : Int
  timeout : Int
  skipTLSVerify : Bool
  retryableStatus : List Int
  headers : List (Str × Str)
  proxy : Str
deriving Repr, DecidableEq

/-- A configuration option, as in request.go. -/
def ClientOption := Client → Client

/-- WithMaxRetries from request.go. -/
def WithMaxRetries (maxRetries : Int) : ClientOption :=
  fun c => { c with maxRetries := maxRetries }

/-- WithRetryableStatus from request.go (replaces the whole set). -/
def WithRetryableStatus (statusCodes : List Int) : ClientOption :=
  fun c => { c with retryableStatus := statusCodes }

/-- WithTimeout from request.go. -/
def WithTimeout (timeout : Int) : ClientOption :=
  fun c => { c with timeout := timeout }

/-- Nanoseconds per millisecond (time.Millisecond). -/
def msNs : Int := 1000000

/-- Nanoseconds per second (time.Second). -/
def secondNs : Int := 1000000000

/-- New from request.go: the defaults record, then the options in order. -/
def New (options : List ClientOption) : Client :=
  options.foldl (fun c o => o c)
    { maxRetries := 3, timeout := 60 * secondNs, skipTLSVerify := true,
      retryableStatus := [429, 500, 502, 503, 504], headers := [], proxy := [] }

/-- What one dispatch of the underlying request produces. -/
inductive AttemptResult where
  | err (e : TransportErr)
  | resp (status : Int)
deriving Repr, DecidableEq

/-- The outcome of Do: the returned status, a transport error, or the
(dead-code) "max retries exceeded" error, with the number of dispatches and
the list of backoff sleeps in order. -/
structure DoResult where
  outcome : Except (Option TransportErr) Int
  attempts : Nat
  sleeps : List Int
deriving Repr

/-- The retry loop of Do from request.go.  `respond k` is the result of the
k-th dispatch; `j k` models rand.Int63n's draw before the k-th retry (taken
modulo backoff/4, so any function models a uniform draw from [0, backoff/4)).
The fuel starts at maxRetries+1, the number of loop iterations. -/
def DoLoop (c : Client) (respond : Nat → AttemptResult) (j : Nat → Nat) :
    Nat → Nat → Int → DoResult
  | 0, attempt, _ => { outcome := .error none, attempts := attempt, sleeps := [] }
  | fuel + 1, attempt, backoff =>
    match respond attempt with
    | .err e =>
      if isRetryableError e ∧ (attempt : Int) < c.maxRetries then
        let sleep := backoff + (j attempt : Int) % (backoff / 4)
        let r := DoLoop c respond j fuel (attempt + 1) (backoff * 2)
        { r with sleeps := sleep :: r.sleeps }
      else { outcome := .error (some e), attempts := attempt + 1, sleeps := [] }
    | .resp status =>
      if status ∉ c.retryableStatus ∨ (attempt : Int) = c.maxRetries then
        { outcome := .ok status, attempts := attempt + 1, sleeps := [] }
      else
        let sleep := backoff + (j attempt : Int) % (backoff / 4)
        let r := DoLoop c respond j fuel (attempt + 1) (backoff * 2)
        { r with sleeps := sleep :: r.sleeps }

/-- Do from request.go: the loop starting at attempt 0 with 500 ms backoff. -/
def Do (c : Client) (respond : Nat → AttemptResult) (j : Nat → Nat) : DoResult :=
  DoLoop c respond j (c.maxRetries + 1).toNat 0 (500 * msNs)

end Req

/-! ## pkg/repair, sync orchestration -/

/-- The externally observable side effects of a cycle: remote calls that
modify provider state, and store persists.  Stream-redirection file writes
appear directly in the FS component of the state. -/
structure Events where
  unrestricts : List Str
  magnets : List Str
  selects : List Str
  deletes : List Str
  trackingSaves : Nat
  retrySaves : Nat
  organizerRuns : Nat
deriving Repr, DecidableEq

/-- No side effects. -/
def noEvents : Events := ⟨[], [], [], [], 0, 0, 0⟩

/-- Sequencing of side effects. -/
def Events.app (a b : Events) : Events :=
  ⟨a.unrestricts ++ b.unrestricts, a.magnets ++ b.magnets, a.selects ++ b.selects,
   a.deletes ++ b.deletes, a.trackingSaves + b.trackingSaves,
   a.retrySaves + b.retrySaves, a.organizerRuns + b.organizerRuns⟩

/-- OrganizerResult from sync.go (the organizer is an external collaborator;
its result is an oracle). -/
structure OrganizerResult where
  Processed : Int
  New : Int
  Deleted : Int
  Updated : Int
  Skipped : Int
  Errors : Int
deriving Repr, DecidableEq

/-- The remote API, as oracles: list results for the GETs and per-argument
outcomes for the mutating calls.  `allTorrents2` is the refetch after repair
(none models a failed refetch, whose multi-assignment leaves a nil list). -/
structure Oracles where
  allTorrents : List Torrent
  allTorrents2 : Option (List Torrent)
  allDownloads : List Download
  unres : Str → Except GoError Download
  addMagnet : Str → Except GoError Str
  selectVideo : Str → Except GoError Nat
  orgResult : OrganizerResult

namespace Repair

/-- RepairTorrent from repair.go: add magnet, select video files (deleting
the new torrent on failure), delete the original (failure non-fatal).
SelectVideoFiles is abstracted as one oracle (it is GetTorrentInfo plus
SelectFiles).  Returns success and the emitted remote calls. -/
def RepairTorrent (o : Oracles) (t : Torrent) (dryRun : Bool) : Bool × Events :=
  if dryRun then (true, noEvents)
  else
    match o.addMagnet t.Hash with
    | .error _ => (false, { noEvents with magnets := [t.Hash] })
    | .ok newID =>
      match o.selectVideo newID with
      | .error _ =>
        (false, { noEvents with
                  magnets := [t.Hash]
                  selects := [newID]
                  deletes := [newID] })
      | .ok _ =>
        (true, { noEvents with
                 magnets := [t.Hash]
                 selects := [newID]
                 deletes := [t.ID] })

/-- The loop of RepairTorrents from repair.go. -/
def repairList (o : Oracles) (dryRun : Bool) : List Torrent → (Nat × Nat) × Events
  | [] => ((0, 0), noEvents)
  | t :: rest =>
    let h := RepairTorrent o t dryRun
    let r := repairList o dryRun rest
    (if h.1 then (r.1.1 + 1, r.1.2) else (r.1.1, r.1.2 + 1), h.2.app r.2)

/-- RepairTorrents from repair.go: (succeeded, failed) over the batch. -/
def RepairTorrents (o : Oracles) (torrents : List Torrent) (dryRun : Bool) :
    (Nat × Nat) × Events :=
  if torrents = [] then ((0, 0), noEvents)
  else repairList o dryRun torrents

end Repair

namespace SyncP

/-- missingLink from sync.go. -/
structure MissingLink where
  torrent : Torrent
  link : Str
deriving Repr, DecidableEq

/-- The link → download map, built by successive assignment (the last
download with a given link wins). -/
def dmLookup (ds : List Download) (l : Str) : Option Download :=
  match ds.reverse.find? (fun d => decide (d.Link = l)) with
  | some d => some d
  | none => none

/-- Step 5 of Run: the links of downloaded torrents absent from the map. -/
def missingLinksOf (dm : Str → Option Download) : List Torrent → List MissingLink
  | [] => []
  | t :: ts =>
    (t.Links.filter (fun l => (dm l).isNone)).map (fun l => ⟨t, l⟩) ++
    missingLinksOf dm ts

/-- The fan-out loop of unrestrictLinks.  The pool's tasks aggregate under
one mutex; the loop is modeled sequentially in submission order.  Returns
(results, failed, queued), the queue, and the emitted calls. -/
def unrestrictLoop (o : Oracles) (now : Int) :
    List MissingLink → List RetryItem →
    (List Download × List Str × Nat) × List RetryItem × Events
  | [], rq => (([], [], 0), rq, noEvents)
  | ml :: rest, rq =>
    match o.unres ml.link with
    | .error e =>
      let rq1 := addToRetryQueue rq ml.link ml.torrent e now
      let qInc : Nat := if isRetryableError e then 1 else 0
      let r := unrestrictLoop o now rest rq1
      ((r.1.1, ml.link :: r.1.2.1, qInc + r.1.2.2), r.2.1,
       { r.2.2 with unrestricts := ml.link :: r.2.2.unrestricts })
    | .ok d =>
      let r := unrestrictLoop o now rest rq
      ((d :: r.1.1, r.1.2.1, r.1.2.2), r.2.1,
       { r.2.2 with unrestricts := ml.link :: r.2.2.unrestricts })

/-- unrestrictLinks from sync.go: dry-run returns immediately with nothing
dispatched; otherwise the fan-out runs and the queue is persisted when it is
non-empty. -/
def unrestrictLinks (o : Oracles) (now : Int) (links : List MissingLink)
    (rq : List RetryItem) (dryRun : Bool) :
    (List Download × List Str × Nat) × List RetryItem × Events :=
  if dryRun then (([], [], 0), rq, noEvents)
  else
    let r := unrestrictLoop o now links rq
    let saves : Nat := if 0 < r.2.1.length then 1 else 0
    (r.1, r.2.1, { r.2.2 with retrySaves := r.2.2.retrySaves + saves })

/-- findTorrentsForLinks from sync.go.  The source deduplicates by torrent id
through a map and returns values in map order; the model keeps first-seen
order (the result only feeds the repair batch). -/
def findTorrentsForLinks (torrents : List Torrent) (failedLinks : List Str) :
    List Torrent :=
  torrents.filter (fun t => t.Links.any (fun l => decide (l ∈ failedLinks)))

/-- Nanoseconds per hour (time.Hour). -/
def hourNs : Int := 3600000000000

/-- The loop of refreshExpiringLinks: re-unrestrict each expired record and,
on success, overwrite the file and refresh the tracking record, persisting
the store each time (UpdateSTRM saves). -/
def refreshLoop (o : Oracles) (now : Int) :
    List FileTracking → FS → TrackMap → FS × TrackMap × Events
  | [], fs, tr => (fs, tr, noEvents)
  | item :: rest, fs, tr =>
    match o.unres item.Link with
    | .error _ =>
      let r := refreshLoop o now rest fs tr
      (r.1, r.2.1, { r.2.2 with unrestricts := item.Link :: r.2.2.unrestricts })
    | .ok d =>
      let fs1 := Strm.writeFS fs item.RelativePath d.DownloadURL
      let tr1 := Tracking.Track tr item.RelativePath d.DownloadURL item.Link
        item.TorrentID now
      let r := refreshLoop o now rest fs1 tr1
      (r.1, r.2.1, { r.2.2 with
                     unrestricts := item.Link :: r.2.2.unrestricts
                     trackingSaves := r.2.2.trackingSaves + 1 })

/-- refreshExpiringLinks from sync.go. -/
def refreshExpiringLinks (o : Oracles) (fileExpiryDays : Int) (now : Int)
    (fs : FS) (tr : TrackMap) : FS × TrackMap × Events :=
  let expiredFiles := Tracking.GetExpired tr now (fileExpiryDays * 24 * hourNs)
  refreshLoop o now expiredFiles fs tr

/-- The configuration options consumed by Run. -/
structure Config where
  RepairTorrents : Bool
  MinFileSizeMB : Int
  PttRename : Bool
  FileExpiryDays : Int
  MaxRetryAttempts : Int
deriving Repr, DecidableEq

/-- RunResult from sync.go (duration omitted: wall-clock time). -/
structure RunResult where
  TorrentsTotal : Nat
  TorrentsDownloaded : Nat
  TorrentsDead : Nat
  TorrentsRepaired : Nat
  DownloadsTotal : Nat
  DownloadsAfter : Nat
  LinksUnrestricted : Nat
  LinksFailed : Nat
  LinksQueued : Nat
  STRMAdded : Nat
  STRMUpdated : Nat
  STRMDeleted : Nat
  STRMSkipped : Nat
  OrgProcessed : Int
  OrgNew : Int
  OrgDeleted : Int
  OrgUpdated : Int
  OrgErrors : Int
deriving Repr, DecidableEq

/-- The mutable state a cycle touches. -/
structure RunState where
  fs : FS
  tracking : TrackMap
  retryQueue : List RetryItem
deriving Repr, DecidableEq

/-- Run from sync.go: one full cycle over the oracle world. -/
def Run (o : Oracles) (cfg : Config) (now : Int) (st : RunState) (dryRun : Bool) :
    RunResult × RunState × Events :=
  let t1 := RD.getTorrentsFiltered o.allTorrents
  let downloaded1 := t1.1
  let dead := t1.2
  let step2 :=
    if dryRun then (st.retryQueue, noEvents)
    else
      let r := processRetryQueue cfg.MaxRetryAttempts st.retryQueue downloaded1 o.unres
      (r.2.1, { noEvents with
                unrestricts := r.2.2.1.map (fun it => it.Link)
                retrySaves := r.2.2.2 })
  let rq2 := step2.1
  let step3 :=
    if cfg.RepairTorrents ∧ dead ≠ [] then
      let r := Repair.RepairTorrents o dead dryRun
      let downloaded' :=
        if 0 < r.1.1 ∧ ¬ dryRun then
          match o.allTorrents2 with
          | some all2 => (RD.getTorrentsFiltered all2).1
          | none => []
        else downloaded1
      (r.1.1, r.2, downloaded')
    else (0, noEvents, downloaded1)
  let repaired := step3.1
  let downloaded := step3.2.2
  let downloads := RD.GetDownloads o.allDownloads
  let missing := missingLinksOf (dmLookup downloads) downloaded
  let step6 :=
    if missing ≠ [] then unrestrictLinks o now missing rq2 dryRun
    else (([], [], 0), rq2, noEvents)
  let unrestricted := step6.1.1
  let failed := step6.1.2.1
  let queued := step6.1.2.2
  let rq6 := step6.2.1
  let dm := downloads ++ unrestricted
  let ev6r :=
    if missing ≠ [] ∧ failed ≠ [] ∧ cfg.RepairTorrents ∧ ¬ dryRun then
      let ft := findTorrentsForLinks downloaded failed
      if ft ≠ [] then (Repair.RepairTorrents o ft dryRun).2 else noEvents
    else noEvents
  let bc := buildCandidatesInto (dmLookup dm) (MinFileSizeBytes cfg.MinFileSizeMB)
    downloaded
  let s8 := Strm.Sync bc.1 st.fs st.tracking now dryRun
  let strmRes := s8.1
  let orgRuns : Nat := if cfg.PttRename ∧ ¬ dryRun then 1 else 0
  let org := if cfg.PttRename ∧ ¬ dryRun then o.orgResult else ⟨0, 0, 0, 0, 0, 0⟩
  let step10 :=
    if ¬ dryRun then refreshExpiringLinks o cfg.FileExpiryDays now s8.2.1 s8.2.2.1
    else (s8.2.1, s8.2.2.1, noEvents)
  let evSync : Events := { noEvents with
    trackingSaves := s8.2.2.2
    organizerRuns := orgRuns }
  let events :=
    (step2.2.app (step3.2.1.app (step6.2.2.app (ev6r.app
      (evSync.app step10.2.2)))))
  ({ TorrentsTotal := downloaded1.length + dead.length
     TorrentsDownloaded := downloaded1.length
     TorrentsDead := dead.length
     TorrentsRepaired := repaired
     DownloadsTotal := downloads.length
     DownloadsAfter := ((dm.map (fun d => d.Link)).dedup).length
     LinksUnrestricted := unrestricted.length
     LinksFailed := failed.length
     LinksQueued := queued
     STRMAdded := strmRes.Added
     STRMUpdated := strmRes.Updated
     STRMDeleted := strmRes.Deleted
     STRMSkipped := strmRes.Skipped
     OrgProcessed := org.Processed
     OrgNew := org.New
     OrgDeleted := org.Deleted
     OrgUpdated := org.Updated
     OrgErrors := org.Errors },
   { fs := step10.1, tracking := step10.2.1, retryQueue := rq6 },
   events)

end SyncP

/-! ## Claim C5: deduplication of downloads -/

namespace RD

/-- The link keys of the accumulator are pairwise distinct. -/
def keysNodup (m : List (Str × Download)) : Prop :=
  (m.map (fun e => e.1)).Nodup

theorem mem_unique_of_keysNodup (m : List (Str × Download)) (hm : keysNodup m)
    (k : Str) (a b : Download) (ha : (k, a) ∈ m) (hb : (k, b) ∈ m) : a = b := by
  induction m with
  | nil => cases ha
  | cons e rest ih =>
    simp only [keysNodup, List.map_cons, List.nodup_cons] at hm
    rcases List.mem_cons.mp ha with h | ha'
    · rcases List.mem_cons.mp hb with h' | hb'
      · exact congrArg Prod.snd (h.trans h'.symm)
      · exfalso
        apply hm.1
        rw [show e.1 = k from congrArg Prod.fst h.symm]
        exact List.mem_map.mpr ⟨(k, b), hb', rfl⟩
    · rcases List.mem_cons.mp hb with h' | hb'
      · exfalso
        apply hm.1
        rw [show e.1 = k from congrArg Prod.fst h'.symm]
        exact List.mem_map.mpr ⟨(k, a), ha', rfl⟩
      · exact ih hm.2 ha' hb'

/-- The invariant of the linkMap fold: distinct keys, every entry keyed by
its download's link and drawn from the processed prefix, every processed link
covered, and every entry maximal in Generated among its link's downloads. -/
def DedupInv (pre : List Download) (m : List (Str × Download)) : Prop :=
  keysNodup m ∧
  (∀ e ∈ m, (e : Str × Download).2.Link = e.1 ∧ e.2 ∈ pre) ∧
  (∀ d ∈ pre, ∃ e ∈ m, (e : Str × Download).1 = d.Link) ∧
  (∀ e ∈ m, ∀ d ∈ pre, d.Link = (e : Str × Download).1 →
    d.Generated ≤ e.2.Generated)

theorem dedupInsert_inv (pre : List Download) (m : List (Str × Download))
    (d : Download) (h : DedupInv pre m) : DedupInv (pre ++ [d]) (dedupInsert m d) := by
  obtain ⟨h1, h2, h3, h4⟩ := h
  cases hf : m.find? (fun e => decide (e.1 = d.Link)) with
  | none =>
    have habs : ∀ e ∈ m, ¬ ((e : Str × Download).1 = d.Link) := by
      intro e he
      have := List.find?_eq_none.mp hf e he
      simpa using this
    simp only [dedupInsert, hf]
    refine ⟨?_, ?_, ?_, ?_⟩
    · unfold keysNodup
      rw [List.map_append]
      simp only [List.map_cons, List.map_nil]
      rw [List.nodup_append]
      refine ⟨h1, List.nodup_singleton _, ?_⟩
      intro k hk hk'
      simp only [List.mem_singleton] at hk'
      subst hk'
      obtain ⟨e, he, hke⟩ := List.mem_map.mp hk
      exact habs e he hke
    · intro e he
      rcases List.mem_append.mp he with he' | he'
      · obtain ⟨hl, hp⟩ := h2 e he'
        exact ⟨hl, List.mem_append_left _ hp⟩
      · simp only [List.mem_singleton] at he'
        rw [he']
        exact ⟨rfl, List.mem_append_right _ (List.mem_singleton_self _)⟩
    · intro d' hd'
      rcases List.mem_append.mp hd' with hd'' | hd''
      · obtain ⟨e, he, hke⟩ := h3 d' hd''
        exact ⟨e, List.mem_append_left _ he, hke⟩
      · simp only [List.mem_singleton] at hd''
        rw [hd'']
        exact ⟨(d.Link, d), List.mem_append_right _ (List.mem_singleton_self _), rfl⟩
    · intro e he d' hd' hlink
      rcases List.mem_append.mp he with he' | he'
      · rcases List.mem_append.mp hd' with hd'' | hd''
        · exact h4 e he' d' hd'' hlink
        · simp only [List.mem_singleton] at hd''
          rw [hd''] at hlink
          exact absurd hlink.symm (habs e he')
      · simp only [List.mem_singleton] at he'
        rcases List.mem_append.mp hd' with hd'' | hd''
        · obtain ⟨e', he'', hke'⟩ := h3 d' hd''
          rw [he'] at hlink
          simp only at hlink
          exact absurd (hke'.trans hlink) (habs e' he'')
        · simp only [List.mem_singleton] at hd''
          rw [he', hd'']
  | some e0 =>
    have he0m : e0 ∈ m := List.mem_of_find?_eq_some hf
    have he0k : e0.1 = d.Link := by
      have := List.find?_some hf
      simpa using this
    by_cases hgen : e0.2.Generated < d.Generated
    · simp only [dedupInsert, hf, if_pos hgen]
      have hkeys : (m.map (fun e' => if e'.1 = d.Link then (d.Link, d) else e')).map
          (fun e => e.1) = m.map (fun e => e.1) := by
        rw [List.map_map]
        apply List.map_congr_left
        intro e _
        by_cases hk : e.1 = d.Link
        · simp [hk]
        · simp [hk]
      refine ⟨?_, ?_, ?_, ?_⟩
      · unfold keysNodup
        rw [hkeys]; exact h1
      · intro e he
        obtain ⟨e', he', hee⟩ := List.mem_map.mp he
        by_cases hk : e'.1 = d.Link
        · rw [if_pos hk] at hee
          rw [← hee]
          exact ⟨rfl, List.mem_append_right _ (List.mem_singleton_self _)⟩
        · rw [if_neg hk] at hee
          rw [← hee]
          obtain ⟨hl, hp⟩ := h2 e' he'
          exact ⟨hl, List.mem_append_left _ hp⟩
      · intro d' hd'
        rcases List.mem_append.mp hd' with hd'' | hd''
        · obtain ⟨e', he', hke'⟩ := h3 d' hd''
          by_cases hk : e'.1 = d.Link
          · refine ⟨(d.Link, d), List.mem_map.mpr ⟨e', he', by rw [if_pos hk]⟩, ?_⟩
            rw [← hke', hk]
          · exact ⟨e', List.mem_map.mpr ⟨e', he', by rw [if_neg hk]⟩, hke'⟩
        · simp only [List.mem_singleton] at hd''
          rw [hd'']
          exact ⟨(d.Link, d), List.mem_map.mpr ⟨e0, he0m, by rw [if_pos he0k]⟩, rfl⟩
      · intro e he d' hd' hlink
        obtain ⟨e', he', hee⟩ := List.mem_map.mp he
        by_cases hk : e'.1 = d.Link
        · rw [if_pos hk] at hee
          rw [← hee] at hlink ⊢
          simp only at hlink ⊢
          rcases List.mem_append.mp hd' with hd'' | hd''
          · have := h4 e0 he0m d' hd'' (by rw [hlink, he0k])
            omega
          · simp only [List.mem_singleton] at hd''
            rw [hd'']
        · rw [if_neg hk] at hee
          rw [← hee] at hlink ⊢
          rcases List.mem_append.mp hd' with hd'' | hd''
          · exact h4 e' he' d' hd'' hlink
          · simp only [List.mem_singleton] at hd''
            rw [hd''] at hlink
            exact absurd (hlink.symm.trans rfl) (fun hc => hk hc)
    · simp only [dedupInsert, hf, if_neg hgen]
      refine ⟨h1, ?_, ?_, ?_⟩
      · intro e he
        obtain ⟨hl, hp⟩ := h2 e he
        exact ⟨hl, List.mem_append_left _ hp⟩
      · intro d' hd'
        rcases List.mem_append.mp hd' with hd'' | hd''
        · obtain ⟨e', he', hke'⟩ := h3 d' hd''
          exact ⟨e', he', hke'⟩
        · simp only [List.mem_singleton] at hd''
          rw [hd'']
          exact ⟨e0, he0m, he0k⟩
      · intro e he d' hd' hlink
        rcases List.mem_append.mp hd' with hd'' | hd''
        · exact h4 e he d' hd'' hlink
        · simp only [List.mem_singleton] at hd''
          rw [hd''] at hlink ⊢
          have heq : e.2 = e0.2 := by
            have hpair : e = (e.1, e.2) := rfl
            have hpair0 : e0 = (e0.1, e0.2) := rfl
            have hkeq : e.1 = e0.1 := by rw [he0k, ← hlink]
            apply mem_unique_of_keysNodup m h1 e.1 e.2 e0.2
            · rw [← hpair]; exact he
            · rw [hkeq, ← hpair0]; exact he0m
          rw [heq]
          omega

theorem foldl_dedup_inv (ds pre : List Download) (m : List (Str × Download))
    (h : DedupInv pre m) : DedupInv (pre ++ ds) (ds.foldl dedupInsert m) := by
  induction ds generalizing pre m with
  | nil => simpa using h
  | cons d rest ih =>
    have := ih (pre ++ [d]) (dedupInsert m d) (dedupInsert_inv pre m d h)
    simpa using this

theorem dedupInv_nil : DedupInv [] [] := by
  refine ⟨List.nodup_nil, ?_, ?_, ?_⟩ <;> intro e he <;> cases he

end RD

/-- C5: after deduplication, the downloads have pairwise distinct source
links, every output download occurs in the input, every input link is still
represented, and each kept download's Generated time is maximal among the
input downloads sharing its link — so whenever two inputs share a link,
only one with the latest generated time can be the kept one. -/
theorem deduplicateDownloads_spec (downloads : List Download) :
    ((RD.deduplicateDownloads downloads).map (fun d => d.Link)).Nodup ∧
    (∀ d ∈ RD.deduplicateDownloads downloads, d ∈ downloads) ∧
    (∀ d' ∈ downloads, ∃ d ∈ RD.deduplicateDownloads downloads, d.Link = d'.Link) ∧
    (∀ d ∈ RD.deduplicateDownloads downloads, ∀ d' ∈ downloads,
      d'.Link = d.Link → d'.Generated ≤ d.Generated) := by
  have hinv := RD.foldl_dedup_inv downloads [] [] RD.dedupInv_nil
  simp only [List.nil_append] at hinv
  obtain ⟨h1, h2, h3, h4⟩ := hinv
  unfold RD.deduplicateDownloads
  set m := downloads.foldl RD.dedupInsert [] with hm
  refine ⟨?_, ?_, ?_, ?_⟩
  · have : (m.map (fun e => e.2)).map (fun d => d.Link) = m.map (fun e => e.1) := by
      rw [List.map_map]
      apply List.map_congr_left
      intro e he
      exact (h2 e he).1
    rw [this]
    exact h1
  · intro d hd
    obtain ⟨e, he, hee⟩ := List.mem_map.mp hd
    exact hee ▸ (h2 e he).2
  · intro d' hd'
    obtain ⟨e, he, hke⟩ := h3 d' hd'
    exact ⟨e.2, List.mem_map_of_mem _ he, by rw [(h2 e he).1, hke]⟩
  · intro d hd d' hd' hlink
    obtain ⟨e, he, hee⟩ := List.mem_map.mp hd
    subst hee
    exact h4 e he d' hd' (by rw [hlink, (h2 e he).1])

/-- A concrete download used by the C5 witness. -/
def dlA : Download := ⟨"a".toList, [], [], 1, "l".toList, [], 0, [], 1, 5⟩

/-- A concrete download used by the C5 witness (same link, later time). -/
def dlB : Download := ⟨"b".toList, [], [], 1, "l".toList, [], 0, [], 1, 9⟩

/-- Witness for C5 on a concrete two-download input sharing one link: the
kept download is the later-generated dlB, and dlA's time bounds it. -/
theorem deduplicateDownloads_spec_witness : dlA.Generated ≤ dlB.Generated :=
  (deduplicateDownloads_spec [dlA, dlB]).2.2.2 dlB (by decide) dlA (by decide)
    (by decide)

/-! ## Claim C6: candidate size filter -/

theorem video_subtitle_disjoint (e : Str) (hv : e ∈ videoExtensions)
    (hs : e ∈ subtitleExtensions) : False := by
  fin_cases hv <;> exact absurd hs (by decide)

theorem isSubtitle_not_isVideo (f : Str) (h : isSubtitle f = true) :
    isVideo f = false := by
  by_contra hv
  rw [Bool.not_eq_false] at hv
  exact video_subtitle_disjoint (goToLower (extOf f))
    (of_decide_eq_true hv) (of_decide_eq_true h)

theorem buildCandidatesLinks_spec (tID tFolder : Str) (dm : Str → Option Download)
    (minSize : Int) (links : List Str) :
    (∀ c ∈ (SyncP.buildCandidatesLinks tID tFolder dm minSize links).1,
      isVideo c.Filename → minSize ≤ c.Filesize) ∧
    (∀ link ∈ links, ∀ d, dm link = some d → isSubtitle d.Filename →
      ∃ c ∈ (SyncP.buildCandidatesLinks tID tFolder dm minSize links).1,
        c.TorrentID = tID ∧ c.Filename = d.Filename ∧ c.Link = d.Link ∧
        c.Filesize = d.Filesize) := by
  induction links with
  | nil => exact ⟨fun c hc => absurd hc (by simp [SyncP.buildCandidatesLinks]), by simp⟩
  | cons link rest ih =>
    cases hdm : dm link with
    | none =>
      rw [show SyncP.buildCandidatesLinks tID tFolder dm minSize (link :: rest) =
        SyncP.buildCandidatesLinks tID tFolder dm minSize rest from by
          simp only [SyncP.buildCandidatesLinks, hdm]]
      refine ⟨ih.1, ?_⟩
      intro l hl d hd hsub
      rcases List.mem_cons.mp hl with rfl | hl'
      · rw [hdm] at hd; cases hd
      · exact ih.2 l hl' d hd hsub
    | some d =>
      by_cases hsmall : isVideo d.Filename = true ∧ d.Filesize < minSize
      · rw [show SyncP.buildCandidatesLinks tID tFolder dm minSize (link :: rest) =
          (let r := SyncP.buildCandidatesLinks tID tFolder dm minSize rest;
           (r.1, r.2.1 + 1, r.2.2)) from by
            simp only [SyncP.buildCandidatesLinks, hdm, if_pos hsmall]]
        refine ⟨ih.1, ?_⟩
        intro l hl d' hd' hsub
        rcases List.mem_cons.mp hl with rfl | hl'
        · rw [hdm] at hd'
          cases hd'
          rw [isSubtitle_not_isVideo _ hsub] at hsmall
          exact absurd hsmall.1 (by simp)
        · exact ih.2 l hl' d' hd' hsub
      · by_cases hother : ¬ isVideo d.Filename = true ∧ ¬ isSubtitle d.Filename = true
        · rw [show SyncP.buildCandidatesLinks tID tFolder dm minSize (link :: rest) =
            (let r := SyncP.buildCandidatesLinks tID tFolder dm minSize rest;
             (r.1, r.2.1, r.2.2 + 1)) from by
              simp only [SyncP.buildCandidatesLinks, hdm, if_neg hsmall, if_pos hother]]
          refine ⟨ih.1, ?_⟩
          intro l hl d' hd' hsub
          rcases List.mem_cons.mp hl with rfl | hl'
          · rw [hdm] at hd'
            cases hd'
            exact absurd hsub (by simpa using hother.2)
          · exact ih.2 l hl' d' hd' hsub
        · rw [show SyncP.buildCandidatesLinks tID tFolder dm minSize (link :: rest) =
            (let r := SyncP.buildCandidatesLinks tID tFolder dm minSize rest;
             ({ TorrentID := tID, TorrentFolder := tFolder, Filename := d.Filename,
                DownloadURL := d.DownloadURL, Link := d.Link,
                Filesize := d.Filesize } :: r.1, r.2)) from by
              simp only [SyncP.buildCandidatesLinks, hdm, if_neg hsmall, if_neg hother]]
          constructor
          · intro c hc hvid
            rcases List.mem_cons.mp hc with rfl | hc'
            · simp only at hvid ⊢
              by_cases hv : isVideo d.Filename = true
              · have : ¬ d.Filesize < minSize := fun hlt => hsmall ⟨hv, hlt⟩
                omega
              · exact absurd hvid (by simpa using hv)
            · exact ih.1 c hc' hvid
          · intro l hl d' hd' hsub
            rcases List.mem_cons.mp hl with rfl | hl'
            · rw [hdm] at hd'
              cases hd'
              exact ⟨_, List.mem_cons_self _ _, rfl, rfl, rfl, rfl⟩
            · obtain ⟨c, hc, hcp⟩ := ih.2 l hl' d' hd' hsub
              exact ⟨c, List.mem_cons_of_mem _ hc, hcp⟩

/-- C6: candidate construction never emits a video candidate below the
configured minimum size, and a matched subtitle candidate is always emitted
(subtitles are never size-filtered). -/
theorem buildCandidates_size_filter (torrents : List Torrent)
    (dm : Str → Option Download) (minMB : Int) :
    (∀ c ∈ (SyncP.buildCandidatesInto dm (MinFileSizeBytes minMB) torrents).1,
      isVideo c.Filename → MinFileSizeBytes minMB ≤ c.Filesize) ∧
    (∀ t ∈ torrents, ∀ link ∈ t.Links, ∀ d, dm link = some d →
      isSubtitle d.Filename →
      ∃ c ∈ (SyncP.buildCandidatesInto dm (MinFileSizeBytes minMB) torrents).1,
        c.TorrentID = t.ID ∧ c.Filename = d.Filename ∧ c.Link = d.Link ∧
        c.Filesize = d.Filesize) := by
  induction torrents with
  | nil => exact ⟨fun c hc => absurd hc (by simp [SyncP.buildCandidatesInto]), by simp⟩
  | cons t ts ih =>
    simp only [SyncP.buildCandidatesInto]
    constructor
    · intro c hc hvid
      rcases List.mem_append.mp hc with hc' | hc'
      · exact (buildCandidatesLinks_spec t.ID t.Filename dm _ t.Links).1 c hc' hvid
      · exact ih.1 c hc' hvid
    · intro t' ht' link hl d hd hsub
      rcases List.mem_cons.mp ht' with rfl | ht''
      · obtain ⟨c, hc, hcp⟩ :=
          (buildCandidatesLinks_spec t'.ID t'.Filename dm _ t'.Links).2 link hl d hd hsub
        exact ⟨c, List.mem_append_left _ hc, hcp⟩
      · obtain ⟨c, hc, hcp⟩ := ih.2 t' ht'' link hl d hd hsub
        exact ⟨c, List.mem_append_right _ hc, hcp⟩

/-- A concrete subtitle download used by the C6 witness. -/
def subDl : Download := ⟨[], "sub.srt".toList, [], 3, "l1".toList, [], 0, [], 1, 0⟩

/-- A concrete torrent used by the C6 witness. -/
def subTorrent : Torrent :=
  ⟨"t".toList, "t".toList, [], 0, "downloaded".toList, ["l1".toList]⟩

/-- The download map used by the C6 witness. -/
def subDm : Str → Option Download := fun l => if l = "l1".toList then some subDl else none

/-- Witness for C6: a concrete torrent with one subtitle link of tiny size is
still emitted. -/
theorem buildCandidates_size_filter_witness :
    ∃ c ∈ (SyncP.buildCandidatesInto subDm (MinFileSizeBytes 150) [subTorrent]).1,
      c.TorrentID = subTorrent.ID ∧ c.Filename = subDl.Filename ∧
      c.Link = subDl.Link ∧ c.Filesize = subDl.Filesize :=
  (buildCandidates_size_filter [subTorrent] subDm 150).2 subTorrent
    (List.mem_singleton_self _) "l1".toList (List.mem_singleton_self _) subDl
    (by decide) (by decide)

/-! ## Claim C4: retry cap -/

namespace Retry

/-- A link does not occur in the queue. -/
def linkAbsent (l : Str) (q : List RetryItem) : Prop :=
  ∀ it ∈ q, it.Link ≠ l

/-- The queue's links are pairwise distinct (the invariant Add maintains). -/
def linksNodup (q : List RetryItem) : Prop :=
  (q.map (fun it => it.Link)).Nodup

theorem getLastD_mem (q : List RetryItem) (d : RetryItem) (h : q ≠ []) :
    q.getLastD d ∈ q := by
  induction q generalizing d with
  | nil => exact absurd rfl h
  | cons a rest ih =>
    cases hr : rest with
    | nil => simp [List.getLastD]
    | cons b rest' =>
      rw [List.getLastD_cons]
      right
      rw [← hr]
      exact ih a (by simp [hr])

theorem mem_of_mem_set (l : List RetryItem) (i : Nat) (a x : RetryItem)
    (h : x ∈ l.set i a) : x = a ∨ x ∈ l := by
  induction l generalizing i with
  | nil => cases h
  | cons b rest ih =>
    cases i with
    | zero =>
      rcases List.mem_cons.mp h with rfl | h'
      · exact Or.inl rfl
      · exact Or.inr (List.mem_cons_of_mem _ h')
    | succ j =>
      rcases List.mem_cons.mp h with rfl | h'
      · exact Or.inr (List.mem_cons_self _ _)
      · rcases ih j h' with h'' | h''
        · exact Or.inl h''
        · exact Or.inr (List.mem_cons_of_mem _ h'')

theorem mem_of_mem_dropLast (l : List RetryItem) (x : RetryItem)
    (h : x ∈ l.dropLast) : x ∈ l := by
  induction l with
  | nil => cases h
  | cons a rest ih =>
    cases rest with
    | nil => simp [List.dropLast] at h
    | cons b rest' =>
      rw [List.dropLast_cons₂] at h
      rcases List.mem_cons.mp h with rfl | h'
      · exact List.mem_cons_self _ _
      · exact List.mem_cons_of_mem _ (ih h')

theorem remove_subset (q : List RetryItem) (l : Str) (it : RetryItem)
    (h : it ∈ Remove q l) : it ∈ q := by
  cases hf : findIdxA (fun it => decide (it.Link = l)) q with
  | none =>
    simp only [Remove, hf] at h
    exact h
  | some i =>
    simp only [Remove, hf] at h
    have hqne : q ≠ [] := by
      intro hc
      rw [hc] at hf
      simp [findIdxA] at hf
    have h1 := mem_of_mem_dropLast _ _ h
    rcases mem_of_mem_set _ _ _ _ h1 with rfl | h2
    · exact getLastD_mem q default hqne
    · exact h2

theorem remove_absent_mono (q : List RetryItem) (l l' : Str)
    (h : linkAbsent l' q) : linkAbsent l' (Remove q l) :=
  fun it hit => h it (remove_subset q l it hit)

theorem inc_mapLink (q : List RetryItem) (l : Str) :
    (IncrementRetry q l).map (fun it => it.Link) = q.map (fun it => it.Link) := by
  induction q with
  | nil => rfl
  | cons a rest ih =>
    simp only [IncrementRetry]
    by_cases h : a.Link = l
    · rw [if_pos h]; simp
    · rw [if_neg h]; simp [ih]

theorem inc_mem_link (q : List RetryItem) (l : Str) (it : RetryItem)
    (h : it ∈ IncrementRetry q l) : ∃ it' ∈ q, it.Link = it'.Link := by
  induction q with
  | nil => cases h
  | cons a rest ih =>
    simp only [IncrementRetry] at h
    by_cases ha : a.Link = l
    · rw [if_pos ha] at h
      rcases List.mem_cons.mp h with rfl | h'
      · exact ⟨a, List.mem_cons_self _ _, rfl⟩
      · exact ⟨it, List.mem_cons_of_mem _ h', rfl⟩
    · rw [if_neg ha] at h
      rcases List.mem_cons.mp h with rfl | h'
      · exact ⟨it, List.mem_cons_self _ _, rfl⟩
      · obtain ⟨it', hm, hl⟩ := ih h'
        exact ⟨it', List.mem_cons_of_mem _ hm, hl⟩

theorem inc_absent (q : List RetryItem) (l l' : Str) (h : linkAbsent l' q) :
    linkAbsent l' (IncrementRetry q l) := by
  intro it hit
  obtain ⟨it', hm, hl⟩ := inc_mem_link q l it hit
  rw [hl]
  exact h it' hm

theorem inc_nodup (q : List RetryItem) (l : Str) (h : linksNodup q) :
    linksNodup (IncrementRetry q l) := by
  unfold linksNodup
  rw [inc_mapLink]
  exact h

theorem getLastD_congr (q : List RetryItem) (d1 d2 : RetryItem) (h : q ≠ []) :
    q.getLastD d1 = q.getLastD d2 := by
  cases q with
  | nil => exact absurd rfl h
  | cons a rest => rw [List.getLastD_cons, List.getLastD_cons]

theorem dropLast_cons_ne (a : RetryItem) (l : List RetryItem) (h : l ≠ []) :
    (a :: l).dropLast = a :: l.dropLast := by
  cases l with
  | nil => exact absurd rfl h
  | cons b r => rw [List.dropLast_cons₂]

theorem set_ne_nil (l : List RetryItem) (i : Nat) (g : RetryItem) (h : l ≠ []) :
    l.set i g ≠ [] := by
  intro hc
  apply h
  have := congrArg List.length hc
  rw [List.length_set] at this
  exact List.eq_nil_of_length_eq_zero this

theorem remove_cons_hit (a : RetryItem) (rest : List RetryItem) (l : Str)
    (h : a.Link = l) :
    Remove (a :: rest) l = ((a :: rest).getLastD default :: rest).dropLast := by
  unfold Remove
  rw [show findIdxA (fun it => decide (it.Link = l)) (a :: rest) = some 0 from by
    simp [findIdxA, h]]
  rfl

theorem remove_cons_miss_none (a : RetryItem) (rest : List RetryItem) (l : Str)
    (h : ¬ (a.Link = l))
    (hf : findIdxA (fun it => decide (it.Link = l)) rest = none) :
    Remove (a :: rest) l = a :: rest := by
  unfold Remove
  rw [show findIdxA (fun it => decide (it.Link = l)) (a :: rest) = none from by
    simp [findIdxA, h, hf]]

theorem findIdxA_none_all (p : RetryItem → Bool) (q : List RetryItem)
    (hf : findIdxA p q = none) : ∀ x ∈ q, ¬ (p x = true) := by
  induction q with
  | nil => intro x hx; cases hx
  | cons c r ihr =>
    intro x hx
    simp only [findIdxA] at hf
    by_cases hc : p c = true
    · rw [if_pos hc] at hf; cases hf
    · rw [if_neg hc] at hf
      rcases List.mem_cons.mp hx with rfl | hx'
      · exact hc
      · cases hr : findIdxA p r with
        | none => exact ihr hr x hx'
        | some j => rw [hr] at hf; simp at hf

theorem remove_cons_miss_some (a : RetryItem) (rest : List RetryItem) (l : Str)
    (h : ¬ (a.Link = l)) (i : Nat)
    (hf : findIdxA (fun it => decide (it.Link = l)) rest = some i) :
    Remove (a :: rest) l = a :: Remove rest l := by
  have hrne : rest ≠ [] := by
    intro hc
    rw [hc] at hf
    simp [findIdxA] at hf
  have hR : Remove rest l = (rest.set i (rest.getLastD default)).dropLast := by
    simp only [Remove, hf]
  have hL : Remove (a :: rest) l =
      ((a :: rest).set (i + 1) ((a :: rest).getLastD default)).dropLast := by
    unfold Remove
    rw [show findIdxA (fun it => decide (it.Link = l)) (a :: rest) = some (i + 1) from by
      simp [findIdxA, h, hf]]
  rw [hL, hR]
  rw [show (a :: rest).set (i + 1) ((a :: rest).getLastD default) =
        a :: rest.set i ((a :: rest).getLastD default) from rfl]
  rw [show (a :: rest).getLastD default = rest.getLastD default from by
    rw [List.getLastD_cons]
    exact getLastD_congr rest a default hrne]
  exact dropLast_cons_ne a _ (set_ne_nil rest i _ hrne)

theorem remove_absent (q : List RetryItem) (l : Str) (hn : linksNodup q) :
    linkAbsent l (Remove q l) := by
  induction q with
  | nil =>
    intro it hit
    cases remove_subset [] l it hit
  | cons a rest ih =>
    simp only [linksNodup, List.map_cons, List.nodup_cons] at hn
    by_cases ha : a.Link = l
    · rw [remove_cons_hit a rest l ha]
      intro it hit
      have h1 := mem_of_mem_dropLast _ _ hit
      rcases List.mem_cons.mp h1 with rfl | h2
      · cases hrest : rest with
        | nil =>
          rw [hrest] at hit
          simp [List.getLastD, List.dropLast] at hit
        | cons b rest' =>
          subst hrest
          have hg : (a :: b :: rest').getLastD default ∈ b :: rest' := by
            rw [List.getLastD_cons]
            exact getLastD_mem (b :: rest') a (by simp)
          intro hc
          apply hn.1
          rw [ha, ← hc]
          exact List.mem_map.mpr ⟨_, hg, rfl⟩
      · intro hc
        apply hn.1
        rw [ha, ← hc]
        exact List.mem_map.mpr ⟨it, h2, rfl⟩
    · cases hf : findIdxA (fun it => decide (it.Link = l)) rest with
      | none =>
        rw [remove_cons_miss_none a rest l ha hf]
        intro it hit
        rcases List.mem_cons.mp hit with rfl | h2
        · exact ha
        · intro hc
          have := findIdxA_none_all _ rest hf it h2
          simp only [hc] at this
          simp at this
      | some i =>
        rw [remove_cons_miss_some a rest l ha i hf]
        intro it hit
        rcases List.mem_cons.mp hit with rfl | h2
        · exact ha
        · exact ih hn.2 it h2

theorem eq_dropLast_concat (q : List RetryItem) (d : RetryItem) (h : q ≠ []) :
    q = q.dropLast ++ [q.getLastD d] := by
  induction q generalizing d with
  | nil => exact absurd rfl h
  | cons a rest ih =>
    cases rest with
    | nil => rfl
    | cons b r =>
      rw [List.dropLast_cons₂, List.getLastD_cons, List.cons_append]
      congr 1
      exact ih a (by simp)

theorem remove_mapLink_subset (q : List RetryItem) (l : Str) (x : Str)
    (h : x ∈ (Remove q l).map (fun it => it.Link)) :
    x ∈ q.map (fun it => it.Link) := by
  obtain ⟨it, hit, rfl⟩ := List.mem_map.mp h
  exact List.mem_map.mpr ⟨it, remove_subset q l it hit, rfl⟩

theorem remove_nodup (q : List RetryItem) (l : Str) (hn : linksNodup q) :
    linksNodup (Remove q l) := by
  induction q with
  | nil => exact hn
  | cons a rest ih =>
    simp only [linksNodup, List.map_cons, List.nodup_cons] at hn
    by_cases ha : a.Link = l
    · rw [remove_cons_hit a rest l ha]
      cases hrest : rest with
      | nil => exact List.nodup_nil
      | cons b rest' =>
        subst hrest
        have hne : (b :: rest') ≠ [] := by simp
        rw [show (a :: b :: rest').getLastD default = (b :: rest').getLastD a from
          List.getLastD_cons ..]
        rw [dropLast_cons_ne _ _ hne]
        have hsplit := eq_dropLast_concat (b :: rest') a hne
        have hmap : (b :: rest').map (fun it => it.Link) =
            ((b :: rest').dropLast).map (fun it => it.Link) ++
            [((b :: rest').getLastD a).Link] := by
          conv_lhs => rw [hsplit]
          rw [List.map_append]
          rfl
        rw [hmap] at hn
        have hnr := hn.2
        have hnodup_xs := List.Nodup.of_append_left hnr
        have hdisj := List.disjoint_of_nodup_append hnr
        unfold linksNodup
        rw [List.map_cons, List.nodup_cons]
        constructor
        · intro hc
          exact hdisj hc (List.mem_singleton_self _)
        · exact hnodup_xs
    · cases hf : findIdxA (fun it => decide (it.Link = l)) rest with
      | none =>
        rw [remove_cons_miss_none a rest l ha hf]
        exact List.nodup_cons.mpr ⟨hn.1, hn.2⟩
      | some i =>
        rw [remove_cons_miss_some a rest l ha i hf]
        unfold linksNodup
        rw [List.map_cons, List.nodup_cons]
        refine ⟨fun hc => hn.1 (remove_mapLink_subset rest l _ hc), ih hn.2⟩

end Retry

namespace SyncP

/-- Every item the drain dispatches has RetryCount strictly below the cap
(the cap check precedes the dispatch). -/
theorem drainItems_dispatch_lt (maxAttempts : Int) (torrents : List Torrent)
    (unres : Str → Except GoError Download) (items : List RetryItem) :
    ∀ q, ∀ it ∈ (drainItems maxAttempts torrents unres items q).2.2,
      it.RetryCount < maxAttempts := by
  induction items with
  | nil => intro q it hit; cases hit
  | cons item rest ih =>
    intro q it hit
    simp only [drainItems] at hit
    by_cases hmax : maxAttempts ≤ item.RetryCount
    · rw [if_pos hmax] at hit
      exact ih _ it hit
    · rw [if_neg hmax] at hit
      by_cases hex : torrentExists torrents item.TorrentID = true
      · rw [if_neg (not_not_intro hex)] at hit
        split at hit
        · rename_i e heq
          by_cases hr : isRetryableError e = true
          · rw [if_pos hr] at hit
            rcases List.mem_cons.mp hit with rfl | hit'
            · omega
            · exact ih _ it hit'
          · rw [if_neg hr] at hit
            rcases List.mem_cons.mp hit with rfl | hit'
            · omega
            · exact ih _ it hit'
        · rcases List.mem_cons.mp hit with rfl | hit'
          · omega
          · exact ih _ it hit'
      · rw [if_pos hex] at hit
        exact ih _ it hit

/-- The maxed-out count is exactly the number of snapshot items at or over
the cap. -/
theorem drainItems_maxedOut (maxAttempts : Int) (torrents : List Torrent)
    (unres : Str → Except GoError Download) (items : List RetryItem) :
    ∀ q, (drainItems maxAttempts torrents unres items q).1.MaxedOut =
      (items.filter (fun it => decide (maxAttempts ≤ it.RetryCount))).length := by
  induction items with
  | nil => intro q; rfl
  | cons item rest ih =>
    intro q
    simp only [drainItems, List.filter_cons]
    by_cases hmax : maxAttempts ≤ item.RetryCount
    · rw [if_pos hmax,
        if_pos (show decide (maxAttempts ≤ item.RetryCount) = true from by
          simpa using hmax)]
      simp only [List.length_cons]
      rw [ih]
    · rw [if_neg hmax,
        if_neg (show ¬ (decide (maxAttempts ≤ item.RetryCount) = true) from by
          simpa using hmax)]
      by_cases hex : torrentExists torrents item.TorrentID = true
      · rw [if_neg (not_not_intro hex)]
        split
        · rename_i e heq
          by_cases hr : isRetryableError e = true
          · rw [if_pos hr]
            exact ih _
          · rw [if_neg hr]
            exact ih _
        · exact ih _
      · rw [if_pos hex]
        exact ih _

/-- An absent link stays absent for the rest of the drain. -/
theorem drainItems_absent (maxAttempts : Int) (torrents : List Torrent)
    (unres : Str → Except GoError Download) (items : List RetryItem) (l : Str) :
    ∀ q, Retry.linkAbsent l q →
      Retry.linkAbsent l (drainItems maxAttempts torrents unres items q).2.1 := by
  induction items with
  | nil => intro q h; exact h
  | cons item rest ih =>
    intro q h
    simp only [drainItems]
    by_cases hmax : maxAttempts ≤ item.RetryCount
    · rw [if_pos hmax]
      exact ih _ (Retry.remove_absent_mono q item.Link l h)
    · rw [if_neg hmax]
      by_cases hex : torrentExists torrents item.TorrentID = true
      · rw [if_neg (not_not_intro hex)]
        split
        · rename_i e heq
          by_cases hr : isRetryableError e = true
          · rw [if_pos hr]
            exact ih _ (Retry.inc_absent q item.Link l h)
          · rw [if_neg hr]
            exact ih _ (Retry.remove_absent_mono q item.Link l h)
        · exact ih _ (Retry.remove_absent_mono q item.Link l h)
      · rw [if_pos hex]
        exact ih _ (Retry.remove_absent_mono q item.Link l h)

/-- A maxed-out snapshot item's link is gone from the final queue. -/
theorem drainItems_maxed_removed (maxAttempts : Int) (torrents : List Torrent)
    (unres : Str → Except GoError Download) (items : List RetryItem) :
    ∀ q, Retry.linksNodup q →
      ∀ it ∈ items, maxAttempts ≤ it.RetryCount →
        Retry.linkAbsent it.Link
          (drainItems maxAttempts torrents unres items q).2.1 := by
  induction items with
  | nil => intro q _ it hit; cases hit
  | cons item rest ih =>
    intro q hq it hit hge
    rcases List.mem_cons.mp hit with rfl | hit'
    · simp only [drainItems]
      rw [if_pos hge]
      exact drainItems_absent maxAttempts torrents unres rest it.Link _
        (Retry.remove_absent q it.Link hq)
    · simp only [drainItems]
      by_cases hmax : maxAttempts ≤ item.RetryCount
      · rw [if_pos hmax]
        exact ih _ (Retry.remove_nodup q item.Link hq) it hit' hge
      · rw [if_neg hmax]
        by_cases hex : torrentExists torrents item.TorrentID = true
        · rw [if_neg (not_not_intro hex)]
          split
          · rename_i e heq
            by_cases hr : isRetryableError e = true
            · rw [if_pos hr]
              exact ih _ (Retry.inc_nodup q item.Link hq) it hit' hge
            · rw [if_neg hr]
              exact ih _ (Retry.remove_nodup q item.Link hq) it hit' hge
          · exact ih _ (Retry.remove_nodup q item.Link hq) it hit' hge
        · rw [if_pos hex]
          exact ih _ (Retry.remove_nodup q item.Link hq) it hit' hge

end SyncP

/-- C4: over a drain of the retry queue, an item at or over
max_retry_attempts is counted as maxed-out and removed without being
dispatched: every dispatched item has RetryCount < max (so no item is ever
dispatched with attempt_count ≥ max_attempts), the maxed-out count equals
the number of such items, and — the queue's links being unique, as Add
maintains — no item with a maxed-out item's link survives in the final
queue. -/
theorem processRetryQueue_cap (maxAttempts : Int) (q : List RetryItem)
    (torrents : List Torrent) (unres : Str → Except GoError Download)
    (hq : (q.map (fun it => it.Link)).Nodup) :
    (∀ it ∈ (SyncP.processRetryQueue maxAttempts q torrents unres).2.2.1,
       it.RetryCount < maxAttempts) ∧
    (SyncP.processRetryQueue maxAttempts q torrents unres).1.MaxedOut =
      (q.filter (fun it => decide (maxAttempts ≤ it.RetryCount))).length ∧
    (∀ it ∈ q, maxAttempts ≤ it.RetryCount →
       ∀ it' ∈ (SyncP.processRetryQueue maxAttempts q torrents unres).2.1,
         it'.Link ≠ it.Link) := by
  by_cases hqe : q = []
  · subst hqe
    refine ⟨?_, rfl, ?_⟩
    · intro it hit
      simp [SyncP.processRetryQueue] at hit
    · intro it hit
      cases hit
  · simp only [SyncP.processRetryQueue, if_neg hqe]
    refine ⟨?_, ?_, ?_⟩
    · exact SyncP.drainItems_dispatch_lt maxAttempts torrents unres q q
    · exact SyncP.drainItems_maxedOut maxAttempts torrents unres q q
    · intro it hit hge it' hit'
      exact SyncP.drainItems_maxed_removed maxAttempts torrents unres q q hq
        it hit hge it' hit'

/-- A maxed-out concrete retry item. -/
def itA : RetryItem := ⟨"a".toList, "t".toList, [], 0, 3, [], []⟩

/-- A dispatchable concrete retry item. -/
def itB : RetryItem := ⟨"b".toList, "t".toList, [], 0, 1, [], []⟩

/-- Witness for C4: with cap 2, itA (3 attempts) is maxed out and removed
undispatched; itB (1 attempt) is the only dispatched item. -/
theorem processRetryQueue_cap_witness :
    (∀ it ∈ (SyncP.processRetryQueue 2 [itA, itB]
        [⟨"t".toList, [], [], 0, [], []⟩] (fun _ => .error .LinkBroken)).2.2.1,
       it.RetryCount < 2) ∧
    (SyncP.processRetryQueue 2 [itA, itB]
        [⟨"t".toList, [], [], 0, [], []⟩] (fun _ => .error .LinkBroken)).1.MaxedOut =
      ([itA, itB].filter (fun it => decide ((2:Int) ≤ it.RetryCount))).length ∧
    (∀ it ∈ [itA, itB], (2:Int) ≤ it.RetryCount →
       ∀ it' ∈ (SyncP.processRetryQueue 2 [itA, itB]
          [⟨"t".toList, [], [], 0, [], []⟩] (fun _ => .error .LinkBroken)).2.1,
         it'.Link ≠ it.Link) :=
  processRetryQueue_cap 2 [itA, itB] [⟨"t".toList, [], [], 0, [], []⟩]
    (fun _ => .error .LinkBroken) (by decide)

/-! ## Claim C9: retry backoff of the HTTP client -/

namespace Req

/-- The invariant of the Do retry loop: dispatch count is capped by
maxRetries+1, at most maxRetries sleeps remain, and the k-th remaining sleep
is the doubled backoff 500 ms * 2^(attempt+k) plus its jitter draw, which
lies in [0, backoff/4). -/
theorem DoLoop_spec (c : Client) (respond : Nat → AttemptResult) (j : Nat → Nat) :
    ∀ (fuel attempt : Nat) (backoff : Int),
      (fuel : Int) + (attempt : Int) = c.maxRetries + 1 →
      (attempt : Int) ≤ c.maxRetries →
      backoff = 500 * msNs * 2 ^ attempt →
      (DoLoop c respond j fuel attempt backoff).attempts ≤ (c.maxRetries + 1).toNat ∧
      ((DoLoop c respond j fuel attempt backoff).sleeps.length : Int) +
        (attempt : Int) ≤ c.maxRetries ∧
      (∀ k, k < (DoLoop c respond j fuel attempt backoff).sleeps.length →
        (DoLoop c respond j fuel attempt backoff).sleeps.getD k 0 =
          500 * msNs * 2 ^ (attempt + k) +
          (j (attempt + k) : Int) % ((500 * msNs * 2 ^ (attempt + k)) / 4)) := by
  intro fuel
  induction fuel with
  | zero =>
    intro attempt backoff hf ha hb
    exfalso
    omega
  | succ fuel ih =>
    intro attempt backoff hf ha hb
    simp only [DoLoop]
    split
    · rename_i e heq
      by_cases hcond : isRetryableError e = true ∧ (attempt : Int) < c.maxRetries
      · rw [if_pos hcond]
        have hf' : (fuel : Int) + ((attempt + 1 : Nat) : Int) = c.maxRetries + 1 := by
          push_cast
          push_cast at hf
          omega
        have ha' : ((attempt + 1 : Nat) : Int) ≤ c.maxRetries := by
          push_cast
          omega
        have hb' : backoff * 2 = 500 * msNs * 2 ^ (attempt + 1) := by
          rw [hb, pow_succ]
          ring
        obtain ⟨ih1, ih2, ih3⟩ := ih (attempt + 1) (backoff * 2) hf' ha' hb'
        refine ⟨ih1, ?_, ?_⟩
        · simp only [List.length_cons]
          push_cast
          push_cast at ih2
          omega
        · intro k hk
          simp only [List.length_cons] at hk
          cases k with
          | zero =>
            simp only [List.getD_cons_zero, Nat.add_zero]
            rw [hb]
          | succ k' =>
            simp only [List.getD_cons_succ]
            have := ih3 k' (by omega)
            rw [this]
            have heq : attempt + 1 + k' = attempt + (k' + 1) := by omega
            rw [heq]
      · rw [if_neg hcond]
        refine ⟨show attempt + 1 ≤ (c.maxRetries + 1).toNat by omega,
          by simpa using ha, ?_⟩
        intro k hk
        simp at hk
    · rename_i status heq
      by_cases hcond : status ∉ c.retryableStatus ∨ (attempt : Int) = c.maxRetries
      · rw [if_pos hcond]
        refine ⟨show attempt + 1 ≤ (c.maxRetries + 1).toNat by omega,
          by simpa using ha, ?_⟩
        intro k hk
        simp at hk
      · rw [if_neg hcond]
        push_neg at hcond
        have hf' : (fuel : Int) + ((attempt + 1 : Nat) : Int) = c.maxRetries + 1 := by
          push_cast
          push_cast at hf
          omega
        have ha' : ((attempt + 1 : Nat) : Int) ≤ c.maxRetries := by
          push_cast
          have := hcond.2
          omega
        have hb' : backoff * 2 = 500 * msNs * 2 ^ (attempt + 1) := by
          rw [hb, pow_succ]
          ring
        obtain ⟨ih1, ih2, ih3⟩ := ih (attempt + 1) (backoff * 2) hf' ha' hb'
        refine ⟨ih1, ?_, ?_⟩
        · simp only [List.length_cons]
          push_cast
          push_cast at ih2
          omega
        · intro k hk
          simp only [List.length_cons] at hk
          cases k with
          | zero =>
            simp only [List.getD_cons_zero, Nat.add_zero]
            rw [hb]
          | succ k' =>
            simp only [List.getD_cons_succ]
            have := ih3 k' (by omega)
            rw [this]
            have heq : attempt + 1 + k' = attempt + (k' + 1) := by omega
            rw [heq]

theorem backoff_quarter_pos (k : Nat) : (0 : Int) < (500 * msNs * 2 ^ k) / 4 := by
  have h4 : (500 * msNs * 2 ^ k : Int) = 4 * (125 * msNs * 2 ^ k) := by
    unfold msNs
    ring
  rw [h4, Int.mul_ediv_cancel_left _ (by norm_num : (4:Int) ≠ 0)]
  unfold msNs
  positivity

end Req

/-- C9 (amended): for a client constructed without overriding options, Do
dispatches at most maxRetries+1 = 4 attempts; its backoff sleeps start at
500 ms, double per attempt, and carry a jitter drawn uniformly from
[0, backoff/4) (rand.Int63n modeled as an arbitrary draw reduced mod
backoff/4); the retry count is hard-capped at max_retries, whose default
value is 3 (not 5 — the claim's stated default is wrong; the realdebrid
clients pass WithMaxRetries(5) explicitly). -/
theorem Do_default_backoff (respond : Nat → Req.AttemptResult) (j : Nat → Nat) :
    (Req.New []).maxRetries = 3 ∧
    (Req.Do (Req.New []) respond j).attempts ≤ 4 ∧
    (Req.Do (Req.New []) respond j).sleeps.length ≤ 3 ∧
    (∀ k, k < (Req.Do (Req.New []) respond j).sleeps.length →
      (Req.Do (Req.New []) respond j).sleeps.getD k 0 =
        500 * Req.msNs * 2 ^ k +
        (j k : Int) % ((500 * Req.msNs * 2 ^ k) / 4) ∧
      0 ≤ (j k : Int) % ((500 * Req.msNs * 2 ^ k) / 4) ∧
      (j k : Int) % ((500 * Req.msNs * 2 ^ k) / 4) < (500 * Req.msNs * 2 ^ k) / 4) := by
  have hmax : (Req.New []).maxRetries = 3 := rfl
  have hspec := Req.DoLoop_spec (Req.New []) respond j 4 0 (500 * Req.msNs)
    (by rw [hmax]; norm_num) (by rw [hmax]; norm_num) (by norm_num)
  have hdo : Req.Do (Req.New []) respond j =
      Req.DoLoop (Req.New []) respond j 4 0 (500 * Req.msNs) := rfl
  obtain ⟨h1, h2, h3⟩ := hspec
  rw [hmax] at h1 h2
  refine ⟨hmax, ?_, ?_, ?_⟩
  · rw [hdo]
    simpa using h1
  · rw [hdo]
    omega
  · intro k hk
    rw [hdo] at hk ⊢
    have := h3 k hk
    simp only [Nat.zero_add] at this
    refine ⟨this, ?_, ?_⟩
    · exact Int.emod_nonneg _ (by have := Req.backoff_quarter_pos k; omega)
    · exact Int.emod_lt_of_pos _ (Req.backoff_quarter_pos k)

/-- Witness for C9's amended theorem: with every attempt answering a
retryable 503 and a zero jitter source, the three sleeps exist and the first
one is exactly 500 ms. -/
theorem Do_default_backoff_witness :
    (0 < (Req.Do (Req.New []) (fun _ => .resp 503) (fun _ => 0)).sleeps.length) ∧
    ((Req.Do (Req.New []) (fun _ => .resp 503) (fun _ => 0)).sleeps.getD 0 0 =
        500 * Req.msNs * 2 ^ 0 +
        ((0 : Nat) : Int) % ((500 * Req.msNs * 2 ^ 0) / 4) ∧
      0 ≤ ((0 : Nat) : Int) % ((500 * Req.msNs * 2 ^ 0) / 4) ∧
      ((0 : Nat) : Int) % ((500 * Req.msNs * 2 ^ 0) / 4) <
        (500 * Req.msNs * 2 ^ 0) / 4) :=
  ⟨by decide, (Do_default_backoff (fun _ => .resp 503) (fun _ => 0)).2.2.2 0 (by decide)⟩

/-- C9 counterexample: the default maxRetries of request.New is 3, not 5. -/
theorem New_default_maxRetries_not_five :
    (Req.New []).maxRetries = 3 ∧ (Req.New []).maxRetries ≠ 5 := by
  exact ⟨rfl, by decide⟩

/-! ## Claim C7: sanitization stability -/

theorem extOfAux_suffix (r acc : Str) : ∃ t, t ++ extOfAux r acc = r.reverse ++ acc := by
  induction r generalizing acc with
  | nil => exact ⟨acc, by simp [extOfAux]⟩
  | cons c rest ih =>
    simp only [extOfAux, List.reverse_cons, List.append_assoc, List.cons_append,
      List.nil_append]
    by_cases hc : c = '/'
    · rw [if_pos hc]
      exact ⟨rest.reverse ++ c :: acc, by simp⟩
    · rw [if_neg hc]
      by_cases hd : c = '.'
      · rw [if_pos hd]
        exact ⟨rest.reverse, rfl⟩
      · rw [if_neg hd]
        exact ih (c :: acc)

theorem extOf_suffix (p : Str) : ∃ t, t ++ extOf p = p := by
  obtain ⟨t, ht⟩ := extOfAux_suffix p.reverse []
  exact ⟨t, by simpa using ht⟩

theorem trimSuffixS_append (s suf : Str) (h : ∃ t, t ++ suf = s) :
    trimSuffixS s suf ++ suf = s := by
  obtain ⟨t, rfl⟩ := h
  unfold trimSuffixS
  rw [if_pos (by
    have : suf <:+ t ++ suf := ⟨t, rfl⟩
    exact List.isSuffixOf_iff_suffix.mpr this)]
  rw [List.length_append, Nat.add_sub_cancel, List.take_left]

/-- The base of a sanitized name: the name with its extension stripped. -/
def sanBase (y : Str) : Str := trimSuffixS y (extOf y)

theorem sanBase_append_ext (y : Str) : sanBase y ++ extOf y = y :=
  trimSuffixS_append y (extOf y) (extOf_suffix y)

/-- The base name is in fully cleaned form: separator replacement, space
collapsing, truncation, invalid-character replacement and trimming all leave
it unchanged. -/
def cleanBase (b : Str) : Prop :=
  replaceSeps b = b ∧ joinSpace (goFields b) = b ∧ goLen b ≤ 200 ∧
  replaceInvalid b = b ∧ trimSpaceS b = b

/-- C7 (amended): sanitizeFilename is not idempotent in general (see
`sanitizeFilename_not_idem`); it is idempotent at every name whose sanitized
form is a fixed point of URL-decoding and site-prefix stripping and whose
base is already in cleaned form.  (A second pass can differ only by decoding
escapes the three-pass loop left, stripping a newly-formed site prefix, or
re-cleaning characters such as the underscores the invalid-character
replacement introduces.) -/
theorem sanitizeFilename_idem_of (x : Str)
    (h1 : urlDecode (sanitizeFilename x) = sanitizeFilename x)
    (h2 : removeSitePrefixes (sanitizeFilename x) = sanitizeFilename x)
    (h3 : cleanBase (sanBase (sanitizeFilename x))) :
    sanitizeFilename (sanitizeFilename x) = sanitizeFilename x := by
  obtain ⟨c1, c2, c3, c4, c5⟩ := h3
  set y := sanitizeFilename x with hy
  have hd : decodeFix y 3 = y := by
    simp only [decodeFix, h1, if_pos]
  show sanitizeFilename y = y
  simp only [sanitizeFilename]
  rw [hd, h2]
  rw [show trimSuffixS y (extOf y) = sanBase y from rfl]
  rw [c1, c2]
  rw [show truncateBase (sanBase y) = sanBase y from by
    unfold truncateBase
    rw [if_neg (by omega)]]
  rw [c4, c5]
  exact sanBase_append_ext y

/-- C7 counterexample: sanitization is not idempotent.  sanitize "a?b"
yields "a_b" (the invalid '?' becomes '_'), but a second pass turns the
underscore into a space, yielding "a b". -/
theorem sanitizeFilename_not_idem :
    sanitizeFilename (sanitizeFilename "a?b".toList) ≠
      sanitizeFilename "a?b".toList := by
  decide

/-- Witness for C7's amended theorem at the already-clean name
"Movie Title.mkv". -/
theorem sanitizeFilename_idem_of_witness :
    sanitizeFilename (sanitizeFilename "Movie Title.mkv".toList) =
      sanitizeFilename "Movie Title.mkv".toList :=
  sanitizeFilename_idem_of "Movie Title.mkv".toList (by decide) (by decide)
    ⟨by decide, by decide, by decide, by decide, by decide⟩

/-! ## Claim C2: idempotence of the STRM reconcile -/

namespace Strm

theorem lookup_cons (k v : Str) (rest : FS) (q : Str) :
    lookupFS ((k, v) :: rest) q = if k = q then some v else lookupFS rest q := by
  by_cases h : k = q
  · rw [if_pos h]
    unfold lookupFS
    rw [List.find?_cons_of_pos _ (by simpa using h)]
  · rw [if_neg h]
    unfold lookupFS
    rw [List.find?_cons_of_neg _ (by simpa using h)]

theorem lookup_mem (fs : FS) (p v : Str) (h : lookupFS fs p = some v) :
    (p, v) ∈ fs := by
  unfold lookupFS at h
  cases hf : fs.find? (fun e => decide (e.1 = p)) with
  | none => rw [hf] at h; cases h
  | some e =>
    rw [hf] at h
    cases h
    have hm := List.mem_of_find?_eq_some hf
    have hk : e.1 = p := by simpa using List.find?_some hf
    have : e = (p, e.2) := by
      rw [← hk]
    rw [← this]
    exact hm

theorem mem_lookup_isSome (fs : FS) (p v : Str) (h : (p, v) ∈ fs) :
    (lookupFS fs p).isSome := by
  induction fs with
  | nil => cases h
  | cons e rest ih =>
    rcases List.mem_cons.mp h with rfl | h'
    · rw [lookup_cons]
      simp
    · rcases e with ⟨k, w⟩
      rw [lookup_cons]
      by_cases hk : k = p
      · simp [hk]
      · rw [if_neg hk]
        exact ih h'

theorem lookup_map_write (fs : FS) (p v : Str)
    (h : fs.any (fun e => decide (e.1 = p)) = true) :
    lookupFS (fs.map (fun e => if e.1 = p then (p, v) else e)) p = some v := by
  induction fs with
  | nil => simp at h
  | cons a rest ih =>
    rcases a with ⟨k, w⟩
    rw [List.map_cons]
    by_cases hk : k = p
    · rw [show (if (k, w).1 = p then (p, v) else (k, w)) = (p, v) from by simp [hk]]
      rw [lookup_cons, if_pos rfl]
    · rw [show (if (k, w).1 = p then (p, v) else (k, w)) = (k, w) from by simp [hk]]
      rw [lookup_cons, if_neg hk]
      apply ih
      rcases List.any_eq_true.mp h with ⟨e, he, hke⟩
      rcases List.mem_cons.mp he with rfl | he'
      · exact absurd (by simpa using hke) hk
      · exact List.any_eq_true.mpr ⟨e, he', hke⟩

theorem lookup_map_write_other (fs : FS) (p v q : Str) (h : q ≠ p) :
    lookupFS (fs.map (fun e => if e.1 = p then (p, v) else e)) q = lookupFS fs q := by
  induction fs with
  | nil => rfl
  | cons a rest ih =>
    rcases a with ⟨k, w⟩
    rw [List.map_cons]
    by_cases hk : k = p
    · rw [show (if (k, w).1 = p then (p, v) else (k, w)) = (p, v) from by simp [hk]]
      rw [lookup_cons, lookup_cons, if_neg (fun hc => h hc.symm),
        if_neg (by rw [hk]; exact fun hc => h hc.symm)]
      exact ih
    · rw [show (if (k, w).1 = p then (p, v) else (k, w)) = (k, w) from by simp [hk]]
      rw [lookup_cons, lookup_cons]
      by_cases hkq : k = q
      · rw [if_pos hkq, if_pos hkq]
      · rw [if_neg hkq, if_neg hkq]
        exact ih

theorem lookup_append_single (fs : FS) (p v q : Str) :
    lookupFS (fs ++ [(p, v)]) q =
      match lookupFS fs q with
      | some w => some w
      | none => if p = q then some v else none := by
  induction fs with
  | nil =>
    rw [List.nil_append, lookup_cons]
    rfl
  | cons a rest ih =>
    rcases a with ⟨k, w⟩
    rw [List.cons_append, lookup_cons, lookup_cons]
    by_cases hkq : k = q
    · rw [if_pos hkq, if_pos hkq]
    · rw [if_neg hkq, if_neg hkq]
      exact ih

theorem lookup_eq_none_of_not_any (fs : FS) (p : Str)
    (h : ¬ fs.any (fun e => decide (e.1 = p)) = true) : lookupFS fs p = none := by
  induction fs with
  | nil => rfl
  | cons a rest ih =>
    rcases a with ⟨k, w⟩
    rw [lookup_cons]
    have hk : ¬ (k = p) := by
      intro hc
      exact h (List.any_eq_true.mpr ⟨(k, w), List.mem_cons_self _ _, by simpa using hc⟩)
    rw [if_neg hk]
    apply ih
    intro hc
    obtain ⟨e, he, hke⟩ := List.any_eq_true.mp hc
    exact h (List.any_eq_true.mpr ⟨e, List.mem_cons_of_mem _ he, hke⟩)

theorem lookup_writeFS_self (fs : FS) (p v : Str) :
    lookupFS (writeFS fs p v) p = some v := by
  unfold writeFS
  by_cases h : fs.any (fun e => decide (e.1 = p)) = true
  · rw [if_pos h]
    exact lookup_map_write fs p v h
  · rw [if_neg h, lookup_append_single, lookup_eq_none_of_not_any fs p h]
    rw [show (if p = p then some v else none) = some v from if_pos rfl]

theorem lookup_writeFS_other (fs : FS) (p v q : Str) (h : q ≠ p) :
    lookupFS (writeFS fs p v) q = lookupFS fs q := by
  unfold writeFS
  by_cases hany : fs.any (fun e => decide (e.1 = p)) = true
  · rw [if_pos hany]
    exact lookup_map_write_other fs p v q h
  · rw [if_neg hany, lookup_append_single]
    cases hl : lookupFS fs q with
    | some w => rfl
    | none => rw [if_neg (fun hc => h hc.symm)]

theorem lookup_removeFS_self (fs : FS) (p : Str) :
    lookupFS (removeFS fs p) p = none := by
  induction fs with
  | nil => rfl
  | cons a rest ih =>
    rcases a with ⟨k, w⟩
    unfold removeFS
    rw [List.filter_cons]
    by_cases hk : k = p
    · rw [if_neg (by simpa using hk)]
      exact ih
    · rw [if_pos (by simpa using hk)]
      rw [show List.filter (fun e => decide (e.1 ≠ p)) rest = removeFS rest p from rfl]
      rw [lookup_cons, if_neg hk]
      exact ih

theorem lookup_removeFS_other (fs : FS) (p q : Str) (h : q ≠ p) :
    lookupFS (removeFS fs p) q = lookupFS fs q := by
  induction fs with
  | nil => rfl
  | cons a rest ih =>
    rcases a with ⟨k, w⟩
    unfold removeFS
    rw [List.filter_cons]
    by_cases hk : k = p
    · rw [if_neg (by simpa using hk)]
      rw [show List.filter (fun e => decide (e.1 ≠ p)) rest = removeFS rest p from rfl]
      rw [lookup_cons, if_neg (by rw [hk]; exact fun hc => h hc.symm)]
      exact ih
    · rw [if_pos (by simpa using hk)]
      rw [show List.filter (fun e => decide (e.1 ≠ p)) rest = removeFS rest p from rfl]
      rw [lookup_cons, lookup_cons]
      by_cases hkq : k = q
      · rw [if_pos hkq, if_pos hkq]
      · rw [if_neg hkq, if_neg hkq]
        exact ih

theorem lookup_scan (fs : FS) (q : Str) :
    lookupFS (scanExisting fs) q =
      if isStrmPath q then (lookupFS fs q).map trimSpaceS else none := by
  induction fs with
  | nil =>
    by_cases h : isStrmPath q = true
    · rw [if_pos h]; rfl
    · rw [if_neg h]; rfl
  | cons a rest ih =>
    rcases a with ⟨k, w⟩
    unfold scanExisting
    rw [List.filter_cons]
    by_cases hk : isStrmPath k = true
    · rw [if_pos (by simpa using hk)]
      show lookupFS ((k, trimSpaceS w) :: scanExisting rest) q = _
      rw [lookup_cons]
      by_cases hkq : k = q
      · subst hkq
        rw [if_pos rfl, if_pos hk, lookup_cons, if_pos rfl]
        rfl
      · rw [if_neg hkq, ih, lookup_cons, if_neg hkq]
    · rw [if_neg (by simpa using hk)]
      show lookupFS (scanExisting rest) q = _
      rw [ih, lookup_cons]
      by_cases hkq : k = q
      · subst hkq
        rw [if_neg (by simpa using hk), if_neg (by simpa using hk)]
      · rw [if_neg hkq]

theorem scan_mem (fs : FS) (p v : Str) (h : (p, v) ∈ scanExisting fs) :
    isStrmPath p = true ∧ ∃ w, (p, w) ∈ fs := by
  unfold scanExisting at h
  obtain ⟨e, he, hee⟩ := List.mem_map.mp h
  have hkeep := List.of_mem_filter he
  have hmem := List.mem_of_mem_filter he
  rcases e with ⟨k, w⟩
  simp only at hee
  have hk : k = p := congrArg Prod.fst hee
  subst hk
  exact ⟨by simpa using hkeep, ⟨w, hmem⟩⟩

theorem goToLower_append (a b : Str) : goToLower (a ++ b) = goToLower a ++ goToLower b :=
  List.map_append _ a b

theorem strm_suffix (x : Str) :
    ".strm".toList.isSuffixOf (goToLower (x ++ ".strm".toList)) = true := by
  rw [goToLower_append,
    show goToLower ".strm".toList = ".strm".toList from by decide,
    List.isSuffixOf_iff_suffix]
  exact List.suffix_append _ _

theorem isStrmPath_buildSTRMPath (f n : Str) :
    isStrmPath (buildSTRMPath f n) = true := by
  unfold isStrmPath buildSTRMPath joinPath
  by_cases h : sanitizeFilename f = [] ∨ sanitizeFilename f = ['.']
  · rw [if_pos h]
    exact strm_suffix _
  · rw [if_neg h]
    rw [show sanitizeFilename f ++ '/' ::
        (trimSuffixS (sanitizeFilename n) (extOf (sanitizeFilename n)) ++ ".strm".toList)
        = (sanitizeFilename f ++ '/' ::
            trimSuffixS (sanitizeFilename n) (extOf (sanitizeFilename n)))
          ++ ".strm".toList from by simp]
    exact strm_suffix _

theorem insertReplace_pred (P : Str × STRMCandidate → Prop)
    (l : List (Str × STRMCandidate)) (k : Str) (v : STRMCandidate)
    (hl : ∀ e ∈ l, P e) (hkv : P (k, v)) :
    ∀ e ∈ insertReplace l k v, P e := by
  intro e he
  unfold insertReplace at he
  by_cases h : l.any (fun e => decide (e.1 = k)) = true
  · rw [if_pos h] at he
    obtain ⟨a, ha, hae⟩ := List.mem_map.mp he
    by_cases hk : a.1 = k
    · rw [if_pos hk] at hae
      exact hae ▸ hkv
    · rw [if_neg hk] at hae
      exact hae ▸ hl a ha
  · rw [if_neg h] at he
    rcases List.mem_append.mp he with h1 | h2
    · exact hl e h1
    · rw [List.mem_singleton.mp h2]
      exact hkv

theorem buildExpected_pred (P : Str × STRMCandidate → Prop) :
    ∀ (cands : List STRMCandidate) (acc : List (Str × STRMCandidate)),
      (∀ c ∈ cands, P (buildSTRMPath c.TorrentFolder c.Filename, c)) →
      (∀ e ∈ acc, P e) →
      ∀ e ∈ buildExpected cands acc, P e
  | [], _, _, hacc => hacc
  | c :: rest, acc, hc, hacc =>
    buildExpected_pred P rest _ (fun c' h => hc c' (List.mem_cons_of_mem _ h))
      (insertReplace_pred P acc _ _ hacc (hc c (List.mem_cons_self _ _)))

theorem expectedOf_pred (P : Str × STRMCandidate → Prop) (cands : List STRMCandidate)
    (hc : ∀ c ∈ cands, P (buildSTRMPath c.TorrentFolder c.Filename, c)) :
    ∀ e ∈ expectedOf cands, P e :=
  buildExpected_pred P cands [] hc (fun e he => absurd he (List.not_mem_nil e))

theorem insertReplace_keys (l : List (Str × STRMCandidate)) (k : Str)
    (v : STRMCandidate) (h : (l.map Prod.fst).Nodup) :
    ((insertReplace l k v).map Prod.fst).Nodup := by
  unfold insertReplace
  by_cases ha : l.any (fun e => decide (e.1 = k)) = true
  · rw [if_pos ha]
    rw [show (l.map (fun e => if e.1 = k then (k, v) else e)).map Prod.fst
        = l.map Prod.fst from by
      rw [List.map_map]
      apply List.map_congr_left
      intro e he
      by_cases hk : e.1 = k
      · simp [hk]
      · simp [hk]]
    exact h
  · rw [if_neg ha, List.map_append]
    apply List.Nodup.append h (List.nodup_singleton k)
    intro a hal har
    rw [List.mem_singleton] at har
    subst har
    obtain ⟨e, he, hek⟩ := List.mem_map.mp hal
    exact ha (List.any_eq_true.mpr ⟨e, he, by simpa using hek⟩)

theorem buildExpected_keys :
    ∀ (cands : List STRMCandidate) (acc : List (Str × STRMCandidate)),
      (acc.map Prod.fst).Nodup → ((buildExpected cands acc).map Prod.fst).Nodup
  | [], _, h => h
  | _ :: rest, acc, h =>
    buildExpected_keys rest _ (insertReplace_keys acc _ _ h)

theorem expectedOf_keys (cands : List STRMCandidate) :
    ((expectedOf cands).map Prod.fst).Nodup :=
  buildExpected_keys cands [] List.nodup_nil

theorem processExpected_untouched (existing : FS) (now : Int) (dr : Bool)
    (q : Str) (l : List (Str × STRMCandidate)) :
    ∀ (fs : FS) (tr : TrackMap),
      l.any (fun e => decide (e.1 = q)) = false →
      lookupFS (processExpected existing now dr l fs tr).2.1 q = lookupFS fs q := by
  induction l with
  | nil =>
    intro fs tr _
    rfl
  | cons e rest ih =>
    intro fs tr h
    rcases e with ⟨p, c⟩
    have hq : ¬ (p = q) := by
      intro hc
      rw [List.any_cons] at h
      simp [hc] at h
    have hrest : rest.any (fun e => decide (e.1 = q)) = false := by
      rw [List.any_cons] at h
      exact (Bool.or_eq_false_iff.mp h).2
    have hstep : ∀ fs' : FS,
        lookupFS (if dr then fs' else writeFS fs' p c.DownloadURL) q = lookupFS fs' q := by
      intro fs'
      cases dr with
      | true => rfl
      | false => exact lookup_writeFS_other fs' p c.DownloadURL q (fun hc => hq hc.symm)
    simp only [processExpected]
    split
    · rename_i u hl
      by_cases hu : u = c.DownloadURL
      · rw [if_pos hu]
        exact ih fs tr hrest
      · rw [if_neg hu]
        exact (ih _ _ hrest).trans (hstep fs)
    · exact (ih _ _ hrest).trans (hstep fs)

theorem processExpected_lookup (existing : FS) (now : Int)
    (l : List (Str × STRMCandidate)) :
    ∀ (fs : FS) (tr : TrackMap) (p : Str) (c : STRMCandidate),
      (l.map Prod.fst).Nodup → (p, c) ∈ l →
      lookupFS (processExpected existing now false l fs tr).2.1 p =
        if lookupFS existing p = some c.DownloadURL then lookupFS fs p
        else some c.DownloadURL := by
  induction l with
  | nil =>
    intro fs tr p c _ hmem
    cases hmem
  | cons e rest ih =>
    intro fs tr p c hnd hmem
    rcases e with ⟨p', c'⟩
    have hnd2 : ¬ p' ∈ rest.map Prod.fst ∧ (rest.map Prod.fst).Nodup := by
      rw [List.map_cons, List.nodup_cons] at hnd
      exact hnd
    rcases List.mem_cons.mp hmem with heq | hmem'
    · injection heq with hp hc
      subst hp
      subst hc
      have hnotin : rest.any (fun e => decide (e.1 = p)) = false := by
        rw [List.any_eq_false]
        intro e he
        simp only [decide_eq_true_eq]
        intro hc2
        exact hnd2.1 (List.mem_map.mpr ⟨e, he, hc2⟩)
      simp only [processExpected]
      split
      · rename_i u hl
        by_cases hu : u = c.DownloadURL
        · rw [if_pos hu]
          rw [processExpected_untouched existing now false p rest fs tr hnotin]
          rw [hl, hu, if_pos rfl]
        · rw [if_neg hu]
          rw [processExpected_untouched existing now false p rest _ _ hnotin]
          rw [hl, if_neg (fun hc2 => hu (Option.some.inj hc2))]
          exact lookup_writeFS_self fs p c.DownloadURL
      · rename_i hl
        rw [processExpected_untouched existing now false p rest _ _ hnotin]
        rw [hl, if_neg (fun hc2 => Option.noConfusion hc2)]
        exact lookup_writeFS_self fs p c.DownloadURL
    · have hne : ¬ (p' = p) := by
        intro hc2
        apply hnd2.1
        rw [hc2]
        exact List.mem_map.mpr ⟨(p, c), hmem', rfl⟩
      simp only [processExpected]
      split
      · rename_i u hl
        by_cases hu : u = c'.DownloadURL
        · rw [if_pos hu]
          exact ih fs tr p c hnd2.2 hmem'
        · rw [if_neg hu]
          rw [ih _ _ p c hnd2.2 hmem']
          by_cases hskip : lookupFS existing p = some c.DownloadURL
          · rw [if_pos hskip, if_pos hskip]
            exact lookup_writeFS_other fs p' c'.DownloadURL p (fun hc2 => hne hc2.symm)
          · rw [if_neg hskip, if_neg hskip]
      · rw [ih _ _ p c hnd2.2 hmem']
        by_cases hskip : lookupFS existing p = some c.DownloadURL
        · rw [if_pos hskip, if_pos hskip]
          exact lookup_writeFS_other fs p' c'.DownloadURL p (fun hc2 => hne hc2.symm)
        · rw [if_neg hskip, if_neg hskip]

theorem processExpected_all_skip (existing : FS) (now : Int) (dr : Bool)
    (l : List (Str × STRMCandidate)) :
    ∀ (fs : FS) (tr : TrackMap),
      (∀ e ∈ l, lookupFS existing e.1 = some e.2.DownloadURL) →
      processExpected existing now dr l fs tr = ((0, 0, l.length), fs, tr) := by
  induction l with
  | nil =>
    intro fs tr _
    rfl
  | cons e rest ih =>
    intro fs tr h
    rcases e with ⟨p, c⟩
    have hhead : lookupFS existing p = some c.DownloadURL :=
      h (p, c) (List.mem_cons_self _ _)
    simp only [processExpected]
    split
    · rename_i u hl
      have hu : u = c.DownloadURL := by
        rw [hhead] at hl
        exact (Option.some.inj hl).symm
      rw [if_pos hu, ih fs tr (fun e he => h e (List.mem_cons_of_mem _ he))]
      rfl
    · rename_i hl
      rw [hhead] at hl
      cases hl

theorem deleteOrphans_keep (expected : List (Str × STRMCandidate)) (dr : Bool)
    (q : Str) (hq : expected.any (fun e => decide (e.1 = q)) = true)
    (l : FS) :
    ∀ (fs : FS) (tr : TrackMap),
      lookupFS (deleteOrphans expected dr l fs tr).2.1 q = lookupFS fs q := by
  induction l with
  | nil =>
    intro fs tr
    rfl
  | cons e rest ih =>
    intro fs tr
    rcases e with ⟨p, w⟩
    simp only [deleteOrphans]
    by_cases hp : expected.any (fun e => decide (e.1 = p)) = true
    · rw [if_pos hp]
      exact ih fs tr
    · rw [if_neg hp]
      have hne : ¬ (q = p) := by
        intro hc
        subst hc
        exact hp hq
      have hstep : lookupFS (if dr then fs else removeFS fs p) q = lookupFS fs q := by
        cases dr with
        | true => rfl
        | false => exact lookup_removeFS_other fs p q hne
      exact (ih _ _).trans hstep

theorem deleteOrphans_none (expected : List (Str × STRMCandidate)) (dr : Bool)
    (q : Str) (l : FS) :
    ∀ (fs : FS) (tr : TrackMap),
      lookupFS fs q = none →
      lookupFS (deleteOrphans expected dr l fs tr).2.1 q = none := by
  induction l with
  | nil =>
    intro fs tr h
    exact h
  | cons e rest ih =>
    intro fs tr h
    rcases e with ⟨p, w⟩
    simp only [deleteOrphans]
    by_cases hp : expected.any (fun e => decide (e.1 = p)) = true
    · rw [if_pos hp]
      exact ih fs tr h
    · rw [if_neg hp]
      apply ih
      cases dr with
      | true => exact h
      | false =>
        by_cases hqp : q = p
        · subst hqp
          exact lookup_removeFS_self fs q
        · exact (lookup_removeFS_other fs p q hqp).trans h

theorem deleteOrphans_kill (expected : List (Str × STRMCandidate)) (q : Str)
    (hq : expected.any (fun e => decide (e.1 = q)) = false) (l : FS) :
    ∀ (fs : FS) (tr : TrackMap),
      (∃ w, (q, w) ∈ l) →
      lookupFS (deleteOrphans expected false l fs tr).2.1 q = none := by
  induction l with
  | nil =>
    intro fs tr h
    obtain ⟨w, hw⟩ := h
    cases hw
  | cons e rest ih =>
    intro fs tr h
    rcases e with ⟨p, w'⟩
    simp only [deleteOrphans]
    obtain ⟨w, hw⟩ := h
    rcases List.mem_cons.mp hw with heq | hmem
    · injection heq with hp hwv
      subst hp
      rw [if_neg (fun hc => by rw [hq] at hc; cases hc)]
      apply deleteOrphans_none
      exact lookup_removeFS_self fs q
    · by_cases hp : expected.any (fun e => decide (e.1 = p)) = true
      · rw [if_pos hp]
        exact ih fs tr ⟨w, hmem⟩
      · rw [if_neg hp]
        exact ih _ _ ⟨w, hmem⟩

theorem deleteOrphans_all_kept (expected : List (Str × STRMCandidate)) (dr : Bool)
    (l : FS) :
    ∀ (fs : FS) (tr : TrackMap),
      (∀ e ∈ l, expected.any (fun x => decide (x.1 = e.1)) = true) →
      deleteOrphans expected dr l fs tr = (0, fs, tr) := by
  induction l with
  | nil =>
    intro fs tr _
    rfl
  | cons e rest ih =>
    intro fs tr h
    rcases e with ⟨p, w⟩
    simp only [deleteOrphans]
    rw [if_pos (h (p, w) (List.mem_cons_self _ _))]
    exact ih fs tr (fun e he => h e (List.mem_cons_of_mem _ he))

/-- After a non-dry `Sync`, every expected path holds a content whose
whitespace-trim is the candidate URL. -/
theorem sync_lookup_expected (cands : List STRMCandidate) (fs₀ : FS) (tr₀ : TrackMap)
    (n₁ : Int) (hurl : ∀ c ∈ cands, trimSpaceS c.DownloadURL = c.DownloadURL)
    (p : Str) (c : STRMCandidate) (hmem : (p, c) ∈ expectedOf cands) :
    ∃ w, lookupFS (Sync cands fs₀ tr₀ n₁ false).2.1 p = some w ∧
      trimSpaceS w = c.DownloadURL := by
  have hc : c ∈ cands ∧ p = buildSTRMPath c.TorrentFolder c.Filename := by
    have h2 := expectedOf_pred
      (fun e => e.2 ∈ cands ∧ e.1 = buildSTRMPath e.2.TorrentFolder e.2.Filename)
      cands ?_ (p, c) hmem
    · exact h2
    · intro c' hc'
      refine ⟨hc', ?_⟩
      dsimp only
  have hkeep : (expectedOf cands).any (fun e => decide (e.1 = p)) = true :=
    List.any_eq_true.mpr ⟨(p, c), hmem, by simp⟩
  show ∃ w, lookupFS (deleteOrphans (expectedOf cands) false (scanExisting fs₀)
      (processExpected (scanExisting fs₀) n₁ false (expectedOf cands) fs₀ tr₀).2.1
      (processExpected (scanExisting fs₀) n₁ false (expectedOf cands) fs₀ tr₀).2.2).2.1 p
      = some w ∧ trimSpaceS w = c.DownloadURL
  rw [deleteOrphans_keep (expectedOf cands) false p hkeep]
  rw [processExpected_lookup (scanExisting fs₀) n₁ (expectedOf cands) fs₀ tr₀ p c
    (expectedOf_keys cands) hmem]
  by_cases hskip : lookupFS (scanExisting fs₀) p = some c.DownloadURL
  · rw [if_pos hskip]
    rw [lookup_scan] at hskip
    by_cases hstrm : isStrmPath p = true
    · rw [if_pos hstrm] at hskip
      cases hl : lookupFS fs₀ p with
      | none =>
        rw [hl] at hskip
        cases hskip
      | some w =>
        rw [hl] at hskip
        exact ⟨w, rfl, Option.some.inj hskip⟩
    · rw [if_neg hstrm] at hskip
      cases hskip
  · rw [if_neg hskip]
    exact ⟨c.DownloadURL, rfl, hurl c hc.1⟩

/-- After a non-dry `Sync`, no unexpected .strm path survives in the tree. -/
theorem sync_lookup_orphan (cands : List STRMCandidate) (fs₀ : FS) (tr₀ : TrackMap)
    (n₁ : Int) (q : Str) (hstrm : isStrmPath q = true)
    (hq : (expectedOf cands).any (fun e => decide (e.1 = q)) = false) :
    lookupFS (Sync cands fs₀ tr₀ n₁ false).2.1 q = none := by
  show lookupFS (deleteOrphans (expectedOf cands) false (scanExisting fs₀)
      (processExpected (scanExisting fs₀) n₁ false (expectedOf cands) fs₀ tr₀).2.1
      (processExpected (scanExisting fs₀) n₁ false (expectedOf cands) fs₀ tr₀).2.2).2.1 q
      = none
  have hq2 : (expectedOf cands).any (fun (e : Str × STRMCandidate) =>
      decide (e.1 = q)) = false := hq
  cases hl : lookupFS fs₀ q with
  | none =>
    apply deleteOrphans_none
    rw [processExpected_untouched _ n₁ false q _ fs₀ tr₀]
    · exact hl
    · rw [List.any_eq_false]
      intro e he
      simp only [decide_eq_true_eq]
      intro hc
      have := List.any_eq_false.mp hq2 e he
      simp [hc] at this
  | some w =>
    apply deleteOrphans_kill (expectedOf cands) q hq2 (scanExisting fs₀)
    refine ⟨trimSpaceS w, ?_⟩
    have : lookupFS (scanExisting fs₀) q = some (trimSpaceS w) := by
      rw [lookup_scan, if_pos hstrm, hl]
      rfl
    exact lookup_mem _ _ _ this

/-- C2 main run-2 scan content: the second scan sees the trimmed first-run
contents. -/
theorem sync_second_scan (cands : List STRMCandidate) (fs₀ : FS) (tr₀ : TrackMap)
    (n₁ : Int) (hurl : ∀ c ∈ cands, trimSpaceS c.DownloadURL = c.DownloadURL)
    (p : Str) (c : STRMCandidate) (hmem : (p, c) ∈ expectedOf cands) :
    lookupFS (scanExisting (Sync cands fs₀ tr₀ n₁ false).2.1) p =
      some c.DownloadURL := by
  have hc : c ∈ cands ∧ p = buildSTRMPath c.TorrentFolder c.Filename := by
    have h2 := expectedOf_pred
      (fun e => e.2 ∈ cands ∧ e.1 = buildSTRMPath e.2.TorrentFolder e.2.Filename)
      cands ?_ (p, c) hmem
    · exact h2
    · intro c' hc'
      refine ⟨hc', ?_⟩
      dsimp only
  have hstrm : isStrmPath p = true := by
    rw [hc.2]
    exact isStrmPath_buildSTRMPath _ _
  obtain ⟨w, hw, htr⟩ := sync_lookup_expected cands fs₀ tr₀ n₁ hurl p c hmem
  rw [lookup_scan, if_pos hstrm, hw]
  rw [show Option.map trimSpaceS (some w) = some (trimSpaceS w) from rfl, htr]

theorem second_scan_all (cands : List STRMCandidate) (fs₀ : FS) (tr₀ : TrackMap)
    (n₁ : Int) (hurl : ∀ c ∈ cands, trimSpaceS c.DownloadURL = c.DownloadURL) :
    ∀ e ∈ expectedOf cands,
      lookupFS (scanExisting (Sync cands fs₀ tr₀ n₁ false).2.1) e.1 =
        some e.2.DownloadURL := by
  intro e he
  exact sync_second_scan cands fs₀ tr₀ n₁ hurl e.1 e.2 (by rw [Prod.mk.eta]; exact he)

theorem second_scan_kept (cands : List STRMCandidate) (fs₀ : FS) (tr₀ : TrackMap)
    (n₁ : Int) :
    ∀ e ∈ scanExisting (Sync cands fs₀ tr₀ n₁ false).2.1,
      (expectedOf cands).any (fun x => decide (x.1 = e.1)) = true := by
  intro e he
  obtain ⟨hstrm, w, hw⟩ := scan_mem _ e.1 e.2 (by rw [Prod.mk.eta]; exact he)
  cases hq : (expectedOf cands).any (fun x => decide (x.1 = e.1)) with
  | true => rfl
  | false =>
    exfalso
    have hnone := sync_lookup_orphan cands fs₀ tr₀ n₁ e.1 hstrm hq
    have hsome := mem_lookup_isSome _ e.1 w hw
    rw [hnone] at hsome
    simp at hsome

end Strm

/-- A two-run Sync scenario for C2: candidate with a whitespace-free URL. -/
def idemCand : STRMCandidate :=
  ⟨"t".toList, "Folder".toList, "v.mkv".toList, "u".toList, "l".toList, 1⟩

/-- A two-run Sync scenario for C2: candidate whose URL carries a trailing
space, which the scan step trims. -/
def wsCand : STRMCandidate :=
  ⟨"t".toList, "Folder".toList, "v.mkv".toList, "u ".toList, "l".toList, 1⟩

/-- C2 counterexample: with a candidate URL that ends in a space, the first
run writes the URL verbatim, the second run's scan trims the file content,
the comparison fails, and the second run updates instead of skipping. -/
theorem Sync_not_idempotent :
    (Strm.Sync [wsCand] (Strm.Sync [wsCand] [] [] 5 false).2.1
      (Strm.Sync [wsCand] [] [] 5 false).2.2.1 6 false).1.Updated ≠ 0 := by decide

/-- C2 (amended): for every candidate list whose download URLs are fixed
points of whitespace trimming, running Sync twice back-to-back over any
initial tree and tracking store yields zero added, zero updated and zero
deleted on the second run, and every desired path is counted as skipped. -/
theorem Sync_idempotent (cands : List STRMCandidate) (fs₀ : FS) (tr₀ : TrackMap)
    (n₁ n₂ : Int)
    (hurl : ∀ c ∈ cands, trimSpaceS c.DownloadURL = c.DownloadURL) :
    (Strm.Sync cands (Strm.Sync cands fs₀ tr₀ n₁ false).2.1
        (Strm.Sync cands fs₀ tr₀ n₁ false).2.2.1 n₂ false).1.Added = 0 ∧
    (Strm.Sync cands (Strm.Sync cands fs₀ tr₀ n₁ false).2.1
        (Strm.Sync cands fs₀ tr₀ n₁ false).2.2.1 n₂ false).1.Updated = 0 ∧
    (Strm.Sync cands (Strm.Sync cands fs₀ tr₀ n₁ false).2.1
        (Strm.Sync cands fs₀ tr₀ n₁ false).2.2.1 n₂ false).1.Deleted = 0 ∧
    (Strm.Sync cands (Strm.Sync cands fs₀ tr₀ n₁ false).2.1
        (Strm.Sync cands fs₀ tr₀ n₁ false).2.2.1 n₂ false).1.Skipped =
      (Strm.expectedOf cands).length := by
  have hskip := Strm.second_scan_all cands fs₀ tr₀ n₁ hurl
  have hkept := Strm.second_scan_kept cands fs₀ tr₀ n₁
  have h1 : Strm.processExpected
      (Strm.scanExisting (Strm.Sync cands fs₀ tr₀ n₁ false).2.1) n₂ false
      (Strm.expectedOf cands) (Strm.Sync cands fs₀ tr₀ n₁ false).2.1
      (Strm.Sync cands fs₀ tr₀ n₁ false).2.2.1
      = ((0, 0, (Strm.expectedOf cands).length),
         (Strm.Sync cands fs₀ tr₀ n₁ false).2.1,
         (Strm.Sync cands fs₀ tr₀ n₁ false).2.2.1) :=
    Strm.processExpected_all_skip _ n₂ false _ _ _ hskip
  have h2 : Strm.deleteOrphans (Strm.expectedOf cands) false
      (Strm.scanExisting (Strm.Sync cands fs₀ tr₀ n₁ false).2.1)
      (Strm.processExpected
        (Strm.scanExisting (Strm.Sync cands fs₀ tr₀ n₁ false).2.1) n₂ false
        (Strm.expectedOf cands) (Strm.Sync cands fs₀ tr₀ n₁ false).2.1
        (Strm.Sync cands fs₀ tr₀ n₁ false).2.2.1).2.1
      (Strm.processExpected
        (Strm.scanExisting (Strm.Sync cands fs₀ tr₀ n₁ false).2.1) n₂ false
        (Strm.expectedOf cands) (Strm.Sync cands fs₀ tr₀ n₁ false).2.1
        (Strm.Sync cands fs₀ tr₀ n₁ false).2.2.1).2.2
      = (0, (Strm.Sync cands fs₀ tr₀ n₁ false).2.1,
         (Strm.Sync cands fs₀ tr₀ n₁ false).2.2.1) := by
    rw [h1]
    exact Strm.deleteOrphans_all_kept _ false _ _ _ hkept
  refine ⟨?_, ?_, ?_, ?_⟩
  · show (Strm.processExpected
        (Strm.scanExisting (Strm.Sync cands fs₀ tr₀ n₁ false).2.1) n₂ false
        (Strm.expectedOf cands) (Strm.Sync cands fs₀ tr₀ n₁ false).2.1
        (Strm.Sync cands fs₀ tr₀ n₁ false).2.2.1).1.1 = 0
    rw [h1]
  · show (Strm.processExpected
        (Strm.scanExisting (Strm.Sync cands fs₀ tr₀ n₁ false).2.1) n₂ false
        (Strm.expectedOf cands) (Strm.Sync cands fs₀ tr₀ n₁ false).2.1
        (Strm.Sync cands fs₀ tr₀ n₁ false).2.2.1).1.2.1 = 0
    rw [h1]
  · show (Strm.deleteOrphans (Strm.expectedOf cands) false
        (Strm.scanExisting (Strm.Sync cands fs₀ tr₀ n₁ false).2.1)
        (Strm.processExpected
          (Strm.scanExisting (Strm.Sync cands fs₀ tr₀ n₁ false).2.1) n₂ false
          (Strm.expectedOf cands) (Strm.Sync cands fs₀ tr₀ n₁ false).2.1
          (Strm.Sync cands fs₀ tr₀ n₁ false).2.2.1).2.1
        (Strm.processExpected
          (Strm.scanExisting (Strm.Sync cands fs₀ tr₀ n₁ false).2.1) n₂ false
          (Strm.expectedOf cands) (Strm.Sync cands fs₀ tr₀ n₁ false).2.1
          (Strm.Sync cands fs₀ tr₀ n₁ false).2.2.1).2.2).1 = 0
    rw [h2]
  · show (Strm.processExpected
        (Strm.scanExisting (Strm.Sync cands fs₀ tr₀ n₁ false).2.1) n₂ false
        (Strm.expectedOf cands) (Strm.Sync cands fs₀ tr₀ n₁ false).2.1
        (Strm.Sync cands fs₀ tr₀ n₁ false).2.2.1).1.2.2 =
      (Strm.expectedOf cands).length
    rw [h1]

/-- Concrete instance of the amended C2 theorem: a clean candidate synced
twice from an empty tree, second run all-skip. -/
theorem Sync_idempotent_witness :
    (Strm.Sync [idemCand] (Strm.Sync [idemCand] [] [] 5 false).2.1
        (Strm.Sync [idemCand] [] [] 5 false).2.2.1 6 false).1.Added = 0 ∧
    (Strm.Sync [idemCand] (Strm.Sync [idemCand] [] [] 5 false).2.1
        (Strm.Sync [idemCand] [] [] 5 false).2.2.1 6 false).1.Updated = 0 ∧
    (Strm.Sync [idemCand] (Strm.Sync [idemCand] [] [] 5 false).2.1
        (Strm.Sync [idemCand] [] [] 5 false).2.2.1 6 false).1.Deleted = 0 ∧
    (Strm.Sync [idemCand] (Strm.Sync [idemCand] [] [] 5 false).2.1
        (Strm.Sync [idemCand] [] [] 5 false).2.2.1 6 false).1.Skipped =
      (Strm.expectedOf [idemCand]).length :=
  Sync_idempotent [idemCand] [] [] 5 6 (by decide)

/-! ## Claim C8: dry-run frame -/

namespace Repair

theorem repairList_dry (o : Oracles) :
    ∀ l : List Torrent, repairList o true l = ((l.length, 0), noEvents)
  | [] => rfl
  | t :: rest => by
    simp only [repairList]
    rw [repairList_dry o rest]
    rfl

theorem RepairTorrents_dry (o : Oracles) (l : List Torrent) :
    RepairTorrents o l true = ((l.length, 0), noEvents) := by
  unfold RepairTorrents
  by_cases h : l = []
  · subst h
    rw [if_pos rfl]
    rfl
  · rw [if_neg h]
    exact repairList_dry o l

end Repair

namespace Strm

theorem processExpected_dry (existing : FS) (now : Int)
    (l : List (Str × STRMCandidate)) :
    ∀ (fs : FS) (tr : TrackMap),
      (processExpected existing now true l fs tr).2 = (fs, tr) := by
  induction l with
  | nil =>
    intro fs tr
    rfl
  | cons e rest ih =>
    intro fs tr
    rcases e with ⟨p, c⟩
    simp only [processExpected]
    split
    · rename_i u hl
      by_cases hu : u = c.DownloadURL
      · rw [if_pos hu]
        exact ih fs tr
      · rw [if_neg hu]
        exact ih _ _
    · exact ih _ _

theorem deleteOrphans_dry (expected : List (Str × STRMCandidate)) (l : FS) :
    ∀ (fs : FS) (tr : TrackMap),
      (deleteOrphans expected true l fs tr).2 = (fs, tr) := by
  induction l with
  | nil =>
    intro fs tr
    rfl
  | cons e rest ih =>
    intro fs tr
    rcases e with ⟨p, w⟩
    simp only [deleteOrphans]
    by_cases hp : expected.any (fun e => decide (e.1 = p)) = true
    · rw [if_pos hp]
      exact ih fs tr
    · rw [if_neg hp]
      exact ih _ _

theorem Sync_dry (cands : List STRMCandidate) (fs : FS) (tr : TrackMap) (n : Int) :
    (Sync cands fs tr n true).2 = (fs, tr, 0) := by
  have h1 := processExpected_dry (scanExisting fs) n (expectedOf cands) fs tr
  have h1a : (processExpected (scanExisting fs) n true (expectedOf cands) fs tr).2.1
      = fs := congrArg Prod.fst h1
  have h1b : (processExpected (scanExisting fs) n true (expectedOf cands) fs tr).2.2
      = tr := congrArg Prod.snd h1
  show ((deleteOrphans (expectedOf cands) true (scanExisting fs)
      (processExpected (scanExisting fs) n true (expectedOf cands) fs tr).2.1
      (processExpected (scanExisting fs) n true (expectedOf cands) fs tr).2.2).2.1,
    (deleteOrphans (expectedOf cands) true (scanExisting fs)
      (processExpected (scanExisting fs) n true (expectedOf cands) fs tr).2.1
      (processExpected (scanExisting fs) n true (expectedOf cands) fs tr).2.2).2.2,
    (0 : Nat)) = (fs, tr, 0)
  rw [h1a, h1b]
  have h2 := deleteOrphans_dry (expectedOf cands) (scanExisting fs) fs tr
  rw [show (deleteOrphans (expectedOf cands) true (scanExisting fs) fs tr).2.1 = fs
      from congrArg Prod.fst h2]
  rw [show (deleteOrphans (expectedOf cands) true (scanExisting fs) fs tr).2.2 = tr
      from congrArg Prod.snd h2]

end Strm

namespace SyncP

theorem unrestrictLinks_dry (o : Oracles) (now : Int) (links : List MissingLink)
    (rq : List RetryItem) :
    unrestrictLinks o now links rq true = (([], [], 0), rq, noEvents) := rfl

end SyncP

/-- C8: a dry-run cycle is a pure read.  The output tree, tracking store and
retry queue are returned unchanged (no stream file is created, updated or
deleted, nothing is persisted, the retry drain is skipped), no side-effect
event is emitted, and the read results (torrent partition, download fetch)
still populate the cycle report. -/
theorem Run_dry_frame (o : Oracles) (cfg : SyncP.Config) (now : Int)
    (st : SyncP.RunState) :
    (SyncP.Run o cfg now st true).2.1 = st ∧
    (SyncP.Run o cfg now st true).2.2 = noEvents ∧
    (SyncP.Run o cfg now st true).1.TorrentsDownloaded =
      (RD.getTorrentsFiltered o.allTorrents).1.length ∧
    (SyncP.Run o cfg now st true).1.TorrentsDead =
      (RD.getTorrentsFiltered o.allTorrents).2.length ∧
    (SyncP.Run o cfg now st true).1.DownloadsTotal =
      (RD.GetDownloads o.allDownloads).length ∧
    (SyncP.Run o cfg now st true).1.LinksUnrestricted = 0 := by
  simp only [SyncP.Run]
  simp only [eq_self_iff_true, not_true, and_false, if_false, if_true]
  rw [Repair.RepairTorrents_dry o (RD.getTorrentsFiltered o.allTorrents).2]
  by_cases h3 : cfg.RepairTorrents = true ∧ (RD.getTorrentsFiltered o.allTorrents).2 ≠ []
  · rw [if_pos h3]
    by_cases h6 : SyncP.missingLinksOf (SyncP.dmLookup (RD.GetDownloads o.allDownloads))
        ((((RD.getTorrentsFiltered o.allTorrents).2.length, 0), noEvents).1.1,
          (((RD.getTorrentsFiltered o.allTorrents).2.length, 0), noEvents).2,
          (RD.getTorrentsFiltered o.allTorrents).1).2.2 ≠ []
    · rw [if_pos h6, SyncP.unrestrictLinks_dry, Strm.Sync_dry]
      refine ⟨?_, ?_, ?_, ?_, ?_, ?_⟩ <;> trivial
    · rw [if_neg h6, Strm.Sync_dry]
      refine ⟨?_, ?_, ?_, ?_, ?_, ?_⟩ <;> trivial
  · rw [if_neg h3]
    by_cases h6 : SyncP.missingLinksOf (SyncP.dmLookup (RD.GetDownloads o.allDownloads))
        ((0 : Nat), noEvents, (RD.getTorrentsFiltered o.allTorrents).1).2.2 ≠ []
    · rw [if_pos h6, SyncP.unrestrictLinks_dry, Strm.Sync_dry]
      refine ⟨?_, ?_, ?_, ?_, ?_, ?_⟩ <;> trivial
    · rw [if_neg h6, Strm.Sync_dry]
      refine ⟨?_, ?_, ?_, ?_, ?_, ?_⟩ <;> trivial

/-! ## Claim C1: expiry fallback -/

/-- The repo's own test scenario (tracking_test.go): created 10 days ago but
checked one hour ago, with a 6-day threshold, in hours. -/
def recentCheckRecord : FileTracking :=
  { RelativePath := "recent-check".toList, DownloadURL := [], Link := [],
    CreatedAt := 760, LastChecked := some 999, TorrentID := [] }

/-- C1: the claim (and the repository's own test
TestGetExpired_UsesLastCheckedFallbackCreatedAt) requires GetExpired to use
last_check, falling back to created_at when unset, so a record with an old
created_at but a recent last_check must not be returned.  The code compares
only CreatedAt against the threshold and returns the record: at now = 1000,
older_than = 144 (6 days in hours), a record created at 760 (10 days ago)
and last checked at 999 (1 hour ago) is returned by the code, while the
claim's selection is empty. -/
theorem getExpired_divergence :
    Tracking.GetExpired [recentCheckRecord] 1000 144 = [recentCheckRecord] ∧
    Tracking.GetExpiredSpec [recentCheckRecord] 1000 144 = [] := by
  constructor <;> rfl

/-! ## Claim C10: URL decoding never decodes non-ASCII escapes -/

theorem parseHexAux_ge (s : Str) (acc v : Nat) (h : parseHexAux s acc = some v) :
    acc ≤ v := by
  induction s generalizing acc with
  | nil => simp [parseHexAux] at h; omega
  | cons c rest ih =>
    simp only [parseHexAux] at h
    cases hd : hexDigitVal c with
    | none => simp [hd] at h
    | some d =>
      rw [hd] at h
      have := ih (acc * 16 + d) h
      omega

/-- Any value parseIntHex8 accepts fits in a signed 8-bit integer. -/
theorem parseIntHex8_le (s : Str) (v : Int) (h : parseIntHex8 s = some v) :
    v ≤ 127 := by
  match s with
  | [] => simp [parseIntHex8] at h
  | c0 :: rest =>
    simp only [parseIntHex8] at h
    by_cases hd : (if c0 = '+' ∨ c0 = '-' then rest else c0 :: rest) = []
    · simp [hd] at h
    · rw [if_neg hd] at h
      cases hp : parseHexAux (if c0 = '+' ∨ c0 = '-' then rest else c0 :: rest) 0 with
      | none => rw [hp] at h; simp at h
      | some n =>
        rw [hp] at h
        simp only [] at h
        by_cases hneg : (c0 = '-')
        · simp only [hneg, if_pos] at h
          by_cases hn : n ≤ 128
          · rw [if_pos hn] at h
            cases h
            omega
          · rw [if_neg hn] at h; cases h
        · simp only [hneg, if_false] at h
          by_cases hn : n ≤ 127
          · rw [if_pos hn] at h
            cases h
            omega
          · rw [if_neg hn] at h; cases h

theorem hexDigitVal_not_sign (c : Char) (v : Nat) (h : hexDigitVal c = some v) :
    ¬ (c = '+' ∨ c = '-') := by
  rintro (rfl | rfl) <;> simp [hexDigitVal] at h

theorem hexDigitVal_lt (c : Char) (v : Nat) (h : hexDigitVal c = some v) : v ≤ 15 := by
  simp only [hexDigitVal] at h
  split at h
  · cases h
    next h1 => omega
  · split at h
    · cases h
      next h1 h2 => omega
    · split at h
      · cases h
        next h1 h2 h3 => omega
      · cases h

/-- A two-hex-digit escape with value at least 0x80 is rejected by the
parse. -/
theorem parseIntHex8_nonascii (d1 d2 : Char) (v1 v2 : Nat)
    (h1 : hexDigitVal d1 = some v1) (h2 : hexDigitVal d2 = some v2)
    (hv : 128 ≤ 16 * v1 + v2) : parseIntHex8 [d1, d2] = none := by
  have hs := hexDigitVal_not_sign d1 v1 h1
  simp only [parseIntHex8, if_neg hs]
  have hne : ¬ ([d1, d2] = ([] : Str)) := by simp
  rw [if_neg hne]
  simp only [parseHexAux, h1, h2, Nat.zero_mul, Nat.zero_add]
  have hd1 : ¬ (d1 = '-') := fun hc => hs (Or.inr hc)
  simp only [hd1, if_false]
  rw [if_neg (by omega : ¬ (v1 * 16 + v2 ≤ 127))]

/-- C10: the URL-decoding step replaces a %XX escape only when XX parses as
a hex value fitting a signed 8-bit integer (so, at most 0x7F: conjunct 3);
an escape %80..%FF fails the parse (conjunct 1) and is left in the name
verbatim (conjunct 2), so percent-encoded non-ASCII bytes are never
decoded. -/
theorem urlDecode_nonascii_verbatim (d1 d2 : Char) (v1 v2 : Nat)
    (h1 : hexDigitVal d1 = some v1) (h2 : hexDigitVal d2 = some v2)
    (hv : 128 ≤ 16 * v1 + v2) :
    parseIntHex8 [d1, d2] = none ∧
    urlDecode ['%', d1, d2] = ['%', d1, d2] ∧
    (∀ s v, parseIntHex8 s = some v → v ≤ 127) := by
  have hp := parseIntHex8_nonascii d1 d2 v1 v2 h1 h2 hv
  refine ⟨hp, ?_, fun s v h => parseIntHex8_le s v h⟩
  show urlDecodeGo ['%', d1, d2] 0 3 = ['%', d1, d2]
  simp only [urlDecodeGo]
  norm_num
  rw [hp]

/-- Witness for C10 at the escape %80. -/
theorem urlDecode_nonascii_verbatim_witness :
    parseIntHex8 ['8', '0'] = none ∧
    urlDecode ['%', '8', '0'] = ['%', '8', '0'] ∧
    (∀ s v, parseIntHex8 s = some v → v ≤ 127) :=
  urlDecode_nonascii_verbatim '8' '0' 8 0 (by decide) (by decide) (by decide)

/-! ## Claim C3: retry-queue classification -/

theorem add_mem_link (q : List RetryItem) (link torrentID filename et em : Str)
    (now : Int) :
    ∃ it ∈ Retry.Add q link torrentID filename et em now, it.Link = link := by
  induction q with
  | nil => exact ⟨_, List.mem_singleton_self _, rfl⟩
  | cons a rest ih =>
    simp only [Retry.Add]
    by_cases h : a.Link = link
    · rw [if_pos h]
      exact ⟨_, List.mem_cons_self _ _, h⟩
    · rw [if_neg h]
      obtain ⟨it, hmem, hl⟩ := ih
      exact ⟨it, List.mem_cons_of_mem _ hmem, hl⟩

/-- C3: a failed unrestrict classified as 503-class enqueues — both a typed
HTTPError with status 503 (any code) and the typed code
server_unavailable_retryable (any status) lead to the link being present in
the queue — while the typed 429 error with code rate_limit_exceeded is never
enqueued: addToRetryQueue returns the queue unchanged. -/
theorem retry_classification (q : List RetryItem) (link : Str) (t : Torrent)
    (now : Int) :
    (∀ msg code, ∃ it ∈ SyncP.addToRetryQueue q link t
        (.HTTPError 503 msg code) now, it.Link = link) ∧
    (∀ sc msg, ∃ it ∈ SyncP.addToRetryQueue q link t
        (.HTTPError sc msg "server_unavailable_retryable".toList) now, it.Link = link) ∧
    (∀ msg, SyncP.addToRetryQueue q link t
        (.HTTPError 429 msg "rate_limit_exceeded".toList) now = q) := by
  refine ⟨fun msg code => ?_, fun sc msg => ?_, fun msg => ?_⟩
  · rw [SyncP.addToRetryQueue, if_pos (by simp [SyncP.isRetryableError])]
    exact add_mem_link ..
  · rw [SyncP.addToRetryQueue, if_pos (by simp [SyncP.isRetryableError])]
    exact add_mem_link ..
  · rw [SyncP.addToRetryQueue, if_neg (by simp [SyncP.isRetryableError])]

/-- Witness for C3: a 503 failure on an empty queue enqueues the link, while
the 429 rate-limit failure leaves the queue empty. -/
theorem retry_classification_witness :
    (∃ it ∈ SyncP.addToRetryQueue [] "l".toList
        ⟨"t".toList, [], [], 0, [], []⟩ (.HTTPError 503 [] []) 0,
      it.Link = "l".toList) ∧
    SyncP.addToRetryQueue [] "l".toList ⟨"t".toList, [], [], 0, [], []⟩
        (.HTTPError 429 [] "rate_limit_exceeded".toList) 0 = [] :=
  ⟨(retry_classification [] "l".toList ⟨"t".toList, [], [], 0, [], []⟩ 0).1 [] [],
   (retry_classification [] "l".toList ⟨"t".toList, [], [], 0, [], []⟩ 0).2.2 []⟩

end Robofuse
